import Mathlib

/-!
# myfs: a shallow embedding of `main.c`

The program keeps three global arrays (`block_bitmap`, `inode_bitmap`,
`inodes_array`) and an image file.  The embedding threads them through every
handler as one record `FS`.

Conventions of the embedding.

* A C string is the list of its characters before the terminating NUL.
* Arrays are total functions on `Nat`; the code only indexes them below their
  declared size, and an access the C code makes outside an array makes the
  handler's result `none` (the behaviour of the C program is undefined there).
* A handler returns `some (r, s)`: the `int` it returns and the globals it
  leaves behind.
* The image is kept as its four regions: the persisted copies of the two
  bitmaps and of the inode table, and the block region `data`, addressed by
  byte from the start of block 0.
* `pwrite` and `pread` on the image are taken to transfer every byte asked for.
-/

namespace Myfs

/-- A C string: its characters up to, and without, the terminating NUL. -/
abbrev CStr := List Char

abbrev BLOCK_SIZE : Nat := 512
abbrev BLOCKS_NUM : Nat := 2880
abbrev INODES_NUM : Nat := 192
abbrev MAX_NAME_LEN : Nat := 256
abbrev MAX_FILE_SIZE : Nat := BLOCK_SIZE * 14
abbrev ROOT_INODE : Nat := 0

/-! Constants of the system headers (Linux values). -/

abbrev ENOENT : Int := 2
abbrev EIO : Int := 5
abbrev EEXIST : Int := 17
abbrev ENOTDIR : Int := 20
abbrev EISDIR : Int := 21
abbrev EINVAL : Int := 22
abbrev EFBIG : Int := 27
abbrev ENOSPC : Int := 28
abbrev ENOTEMPTY : Int := 39

abbrev S_IFMT : Nat := 0o170000
abbrev S_IFDIR : Nat := 0o040000
abbrev S_IFREG : Nat := 0o100000

/-- The macro `S_ISREG`. -/
def S_ISREG (m : Nat) : Bool := (m &&& S_IFMT) == S_IFREG

/-- The macro `S_ISDIR`. -/
def S_ISDIR (m : Nat) : Bool := (m &&& S_IFMT) == S_IFDIR

/-- The record `inode_t`.  `links_count` and the entries of `blocks` are `int`
in the source; they only ever hold 0, 1, 2 and results of `find_free_bit`. -/
structure inode_t where
  mode : Nat
  name : CStr
  size : Nat
  links_count : Nat
  blocks : Nat → Nat

/-- The all-zero record: what `memset(p, 0, sizeof(inode_t))` leaves. -/
def zero_inode : inode_t :=
  { mode := 0, name := [], size := 0, links_count := 0, blocks := fun _ => 0 }

/-- The globals of the program together with the contents of the image. -/
structure FS where
  block_bitmap : Nat → Nat
  inode_bitmap : Nat → Nat
  inodes_array : Nat → inode_t
  /-- The block region of the image, by byte offset from its start. -/
  data : Nat → Char
  /-- The image at offset 0. -/
  disk_block_bitmap : Nat → Nat
  /-- The image at offset `sizeof(block_bitmap)`. -/
  disk_inode_bitmap : Nat → Nat
  /-- The image at offset `sizeof(block_bitmap) + sizeof(inode_bitmap)`. -/
  disk_inodes : Nat → inode_t

/-- Assignment to one element of an array. -/
def upd {α : Type} (f : Nat → α) (i : Nat) (v : α) : Nat → α :=
  fun j => if j = i then v else f j

/-- The loop `for (i = i0; i < i0 + n; ++i) if (p i) return i; return -1`,
with `none` for -1. -/
def first_index (p : Nat → Bool) : Nat → Nat → Option Nat
  | 0, _ => none
  | n + 1, i => if p i then some i else first_index p n (i + 1)

/-- The function `find_free_bit`; `none` stands for -1. -/
def find_free_bit (bitmap : Nat → Nat) (size : Nat) : Option Nat :=
  first_index (fun i => bitmap i == 0) size 0

/-- The function `find_free_block`; `none` stands for -1. -/
def find_free_block (s : FS) : Option Nat :=
  first_index (fun i => s.block_bitmap i == 0) BLOCKS_NUM 0

/-- The function `get_inode_index`; `none` stands for -1. -/
def get_inode_index (s : FS) (name : CStr) : Option Nat :=
  first_index (fun i => s.inode_bitmap i != 0 && (s.inodes_array i).name == name) INODES_NUM 0

/-- The tail `strrchr(path, c) + 1` when `c` occurs in `path`; `none` when
`strrchr` returns NULL. -/
def after_last (c : Char) : CStr → Option CStr
  | [] => none
  | x :: xs =>
    match after_last c xs with
    | some t => some t
    | none => if x = c then some xs else none

/-- The function `get_word_after_last_slash`: what it copies into `result`. -/
def get_word_after_last_slash (path : CStr) : CStr :=
  match after_last '/' path with
  | some t => t
  | none => path

def sync_block_bitmap (s : FS) : FS := { s with disk_block_bitmap := s.block_bitmap }

def sync_inode_bitmap (s : FS) : FS := { s with disk_inode_bitmap := s.inode_bitmap }

def sync_inodes (s : FS) : FS := { s with disk_inodes := s.inodes_array }

/-- The root record `init_filesystem_image` builds. -/
def root_inode : inode_t :=
  { mode := S_IFDIR ||| 0o755, name := ['/'], size := 0, links_count := 2, blocks := fun _ => 0 }

/-- The state `init_filesystem_image` leaves when the image file was empty:
the freshly formatted image. -/
def init_filesystem_image : FS :=
  { block_bitmap := fun _ => 0
    inode_bitmap := upd (fun _ => 0) ROOT_INODE 1
    inodes_array := upd (fun _ => zero_inode) ROOT_INODE root_inode
    data := fun _ => Char.ofNat 0
    disk_block_bitmap := fun _ => 0
    disk_inode_bitmap := upd (fun _ => 0) ROOT_INODE 1
    disk_inodes := upd (fun _ => zero_inode) ROOT_INODE root_inode }

/-- What `myfs_getattr` stores in `stbuf`. -/
structure Stat where
  st_mode : Nat
  st_nlink : Nat
  st_size : Nat

/-- The handler `myfs_getattr`: the returned `int` and the filled `stbuf`
(all zero after the `memset` when the path is not found). -/
def myfs_getattr (s : FS) (path : CStr) : Int × Stat :=
  if path = ['/'] then (0, { st_mode := S_IFDIR ||| 0o755, st_nlink := 2, st_size := 0 })
  else
    match first_index (fun i => (s.inodes_array i).name == path) INODES_NUM 0 with
    | none => (-ENOENT, { st_mode := 0, st_nlink := 0, st_size := 0 })
    | some i =>
      (0, { st_mode := (s.inodes_array i).mode
            st_nlink := (s.inodes_array i).links_count
            st_size := (s.inodes_array i).size })

/-- The listing loop of `myfs_readdir`: the names passed to `filler` for the
slots `i, i+1, ..., i+n-1`, in that order. -/
def readdir_loop (s : FS) (path : CStr) : Nat → Nat → List CStr
  | 0, _ => []
  | n + 1, i =>
    if s.inode_bitmap i != 0 && path.isPrefixOf (s.inodes_array i).name then
      if (s.inodes_array i).name = ['/'] then readdir_loop s path n (i + 1)
      else get_word_after_last_slash (s.inodes_array i).name :: readdir_loop s path n (i + 1)
    else readdir_loop s path n (i + 1)

/-- The handler `myfs_readdir`: the returned `int` and the names passed to
`filler`, in order.  A path without any slash makes `strrchr` return NULL. -/
def myfs_readdir (s : FS) (path : CStr) : Option (Int × List CStr) :=
  match after_last '/' path with
  | none => none
  | some name =>
    match get_inode_index s (if name = [] then ['/'] else name) with
    | none => some (-ENOENT, [])
    | some _ => some (0, ['.'] :: ['.', '.'] :: readdir_loop s path INODES_NUM 0)

/-- The handler `myfs_mkdir`.  `strcpy` writes past `name` when the path has
`MAX_NAME_LEN` characters or more. -/
def myfs_mkdir (s : FS) (path : CStr) (mode : Nat) : Option (Int × FS) :=
  match find_free_bit s.inode_bitmap INODES_NUM with
  | none => some (-ENOSPC, s)
  | some free_inode =>
    if MAX_NAME_LEN ≤ path.length then none
    else
      let s1 : FS :=
        { s with
          inode_bitmap := upd s.inode_bitmap free_inode 1
          inodes_array := upd s.inodes_array free_inode
            { s.inodes_array free_inode with
              mode := S_IFDIR ||| mode, size := 0, links_count := 2, name := path } }
      some (0, sync_block_bitmap (sync_inodes (sync_inode_bitmap s1)))

/-- The handler `myfs_create`. -/
def myfs_create (s : FS) (path : CStr) (mode : Nat) : Option (Int × FS) :=
  match get_inode_index s path with
  | some _ => some (-EEXIST, s)
  | none =>
    match find_free_bit s.inode_bitmap INODES_NUM with
    | none => some (-ENOSPC, s)
    | some free_inode =>
      match find_free_bit s.block_bitmap BLOCKS_NUM with
      | none => some (-ENOSPC, s)
      | some free_block =>
        if MAX_NAME_LEN ≤ path.length then none
        else
          let new_file : inode_t :=
            { mode := S_IFREG ||| mode, name := path, size := 0, links_count := 1
              blocks := upd (fun _ => 0) 0 free_block }
          let s1 : FS :=
            { s with
              inode_bitmap := upd s.inode_bitmap free_inode 1
              block_bitmap := upd s.block_bitmap free_block 1
              inodes_array := upd s.inodes_array free_inode new_file }
          some (0, sync_inodes (sync_block_bitmap (sync_inode_bitmap s1)))

/-- The conversion of a `size_t` to the `int` a handler returns. -/
def to_int (n : Nat) : Int :=
  if n % 2 ^ 32 < 2 ^ 31 then ((n % 2 ^ 32 : Nat) : Int) else ((n % 2 ^ 32 : Nat) : Int) - 2 ^ 32

/-- The conversion `int block_index = offset / BLOCK_SIZE` of a non-negative
`off_t`, as the 32-bit pattern it leaves: values from `2 ^ 31` on are the
negative `int`s. -/
def block_index_of (offset : Nat) : Nat := (offset / BLOCK_SIZE) % 2 ^ 32

/-- The call `pwrite(fs_image_fd, bytes, len, start_of_block_region + pos)`, on the
block region. -/
def pwrite_data (data : Nat → Char) (pos : Nat) (bytes : List Char) : Nat → Char :=
  fun a => if pos ≤ a ∧ a < pos + bytes.length then bytes.getD (a - pos) (data a) else data a

/-- The call `pread(fs_image_fd, _, n, start_of_block_region + pos)`, on the
block region. -/
def pread_data (data : Nat → Char) (pos n : Nat) : List Char :=
  (List.range n).map (fun j => data (pos + j))

/-- The statements `block_bitmap[new_block_index] = 1;
file_inode->blocks[block_index] = new_block_index;` of `myfs_write`, for the
inode in slot `idx`. -/
def alloc_block (s : FS) (idx block_index new_block_index : Nat) : FS :=
  { s with
    block_bitmap := upd s.block_bitmap new_block_index 1
    inodes_array := upd s.inodes_array idx
      { s.inodes_array idx with
        blocks := upd (s.inodes_array idx).blocks block_index new_block_index } }

/-- The statement `if (file_inode->blocks[block_index] == 0) ...` of the loop of
`myfs_write`: the state it leaves, or `none` when `find_free_block` returns -1
and the handler returns `-ENOSPC`. -/
def ensure_block (s : FS) (idx block_index : Nat) : Option FS :=
  if (s.inodes_array idx).blocks block_index = 0 then
    match find_free_block s with
    | none => none
    | some new_block_index => some (alloc_block s idx block_index new_block_index)
  else some s

/-- The `pwrite` of `bytes` at byte `pos` of the block region. -/
def put_data (s : FS) (pos : Nat) (bytes : List Char) : FS :=
  { s with data := pwrite_data s.data pos bytes }

/-- The statement `file_inode->size = offset` of `myfs_write`. -/
def set_size (s : FS) (idx n : Nat) : FS :=
  { s with inodes_array := upd s.inodes_array idx { s.inodes_array idx with size := n } }

/-- The statements `memset(file_inode, 0, sizeof(inode_t));
inode_bitmap[inode_index] = 0;` of `myfs_unlink` and `myfs_rmdir`, after the
freeing loop has left `bitmap` as the block bitmap. -/
def release_inode (s : FS) (idx : Nat) (bitmap : Nat → Nat) : FS :=
  { s with
    block_bitmap := bitmap
    inodes_array := upd s.inodes_array idx zero_inode
    inode_bitmap := upd s.inode_bitmap idx 0 }

/-- How the loop of `myfs_write` ends: it runs to its end with the final
`offset` and `bytes_written`, or it returns an error code from inside. -/
inductive WriteExit where
  | done (offset bytes_written : Nat)
  | fail (code : Int)

/-- The `while (bytes_remaining > 0)` loop of `myfs_write` on the inode in slot
`idx`; the third argument is the part of `buf` from `current_buf` on, so
`bytes_remaining` is its length.  The first argument bounds the number of
iterations; every iteration consumes at least one byte, so the length of the
buffer is enough (`write_loop_fuel`).  A negative `block_index` indexes
`blocks` out of bounds. -/
def write_loop (idx : Nat) : Nat → FS → List Char → Nat → Nat → Option (WriteExit × FS)
  | _, s, [], offset, bytes_written => some (.done offset bytes_written, s)
  | 0, _, _ :: _, _, _ => none
  | fuel + 1, s, c :: cs, offset, bytes_written =>
    let block_index := block_index_of offset
    if 2 ^ 31 ≤ block_index then none
    else if 14 ≤ block_index then some (.fail (-EFBIG), s)
    else
      match ensure_block s idx block_index with
      | none => some (.fail (-ENOSPC), s)
      | some s1 =>
        let block_offset := offset % BLOCK_SIZE
        let to_write := min (c :: cs).length (BLOCK_SIZE - block_offset)
        let s2 : FS :=
          put_data s1 ((s1.inodes_array idx).blocks block_index * BLOCK_SIZE + block_offset)
            ((c :: cs).take to_write)
        write_loop idx fuel s2 ((c :: cs).drop to_write) (offset + to_write)
          (bytes_written + to_write)

/-- The handler `myfs_write`; `append` is `fi->flags & O_APPEND`, and `size` is
the length of `buf`.  `offset` is a non-negative `off_t`. -/
def myfs_write (s : FS) (path : CStr) (buf : List Char) (offset : Nat) (append : Bool) :
    Option (Int × FS) :=
  if buf = [] then some (-EINVAL, s)
  else
    match get_inode_index s path with
    | none => some (-ENOENT, s)
    | some inode_index =>
      let offset := if append then (s.inodes_array inode_index).size else offset
      match write_loop inode_index buf.length s buf offset 0 with
      | none => none
      | some (.fail code, s1) => some (code, s1)
      | some (.done offset1 bytes_written, s1) =>
        let s2 : FS :=
          if (s1.inodes_array inode_index).size < offset1 then set_size s1 inode_index offset1
          else s1
        some (to_int bytes_written, sync_block_bitmap (sync_inodes (sync_inode_bitmap s2)))

/-- The `while (bytes_remaining > 0)` loop of `myfs_read` on the inode in slot
`idx`: the bytes stored into `buf`.  The first argument bounds the number of
iterations (`bytes_remaining` is enough, `read_loop_fuel`), the second is
`bytes_remaining`. -/
def read_loop (s : FS) (idx : Nat) : Nat → Nat → Nat → Option (List Char)
  | _, 0, _ => some []
  | 0, _ + 1, _ => none
  | fuel + 1, r + 1, offset =>
    let block_index := block_index_of offset
    if 2 ^ 31 ≤ block_index then none
    else if 14 ≤ block_index then some []
    else
      let block_offset := offset % BLOCK_SIZE
      let to_read := min (r + 1) (BLOCK_SIZE - block_offset)
      match read_loop s idx fuel (r + 1 - to_read) (offset + to_read) with
      | none => none
      | some rest =>
        some (pread_data s.data
          ((s.inodes_array idx).blocks block_index * BLOCK_SIZE + block_offset) to_read ++ rest)

/-- The handler `myfs_read`: the returned `int` and the bytes stored into
`buf`.  It changes no global. -/
def myfs_read (s : FS) (path : CStr) (size offset : Nat) : Option (Int × List Char) :=
  if size = 0 then some (-EINVAL, [])
  else
    match get_inode_index s path with
    | none => some (-ENOENT, [])
    | some inode_index =>
      if (s.inodes_array inode_index).size ≤ offset then some (0, [])
      else
        match read_loop s inode_index size size offset with
        | none => none
        | some bytes => some (to_int bytes.length, bytes)

/-- The loop `for (i = i0; i < BLOCKS_NUM && blocks[i] != 0; i++)
block_bitmap[blocks[i]] = 0` of `myfs_unlink` and `myfs_rmdir`, with
`n = BLOCKS_NUM - i0`.  `blocks` has 14 entries: reading `blocks[i]` for
`i ≥ 14` is out of bounds. -/
def free_blocks (blocks : Nat → Nat) : Nat → Nat → (Nat → Nat) → Option (Nat → Nat)
  | 0, _, bitmap => some bitmap
  | n + 1, i, bitmap =>
    if 14 ≤ i then none
    else if blocks i = 0 then some bitmap
    else free_blocks blocks n (i + 1) (upd bitmap (blocks i) 0)

/-- The handler `myfs_unlink`. -/
def myfs_unlink (s : FS) (path : CStr) : Option (Int × FS) :=
  match get_inode_index s path with
  | none => some (-ENOENT, s)
  | some inode_index =>
    if !S_ISREG (s.inodes_array inode_index).mode then some (-EISDIR, s)
    else
      match free_blocks (s.inodes_array inode_index).blocks BLOCKS_NUM 0 s.block_bitmap with
      | none => none
      | some bitmap =>
        some (0, sync_inodes (sync_inode_bitmap (sync_block_bitmap
          (release_inode s inode_index bitmap))))

/-- What the platform fixes about the image: `sizeof(inode_t)` and the bytes of
a stored record. -/
structure Layout where
  inode_size : Nat
  inode_byte : inode_t → Nat → Nat

/-- The byte of the image file at absolute offset `a`. -/
def image_byte (L : Layout) (s : FS) (a : Nat) : Nat :=
  if a < BLOCKS_NUM then s.disk_block_bitmap a
  else if a < BLOCKS_NUM + INODES_NUM then s.disk_inode_bitmap (a - BLOCKS_NUM)
  else if a < BLOCKS_NUM + INODES_NUM + INODES_NUM * L.inode_size then
    L.inode_byte (s.disk_inodes ((a - (BLOCKS_NUM + INODES_NUM)) / L.inode_size))
      ((a - (BLOCKS_NUM + INODES_NUM)) % L.inode_size)
  else (s.data (a - (BLOCKS_NUM + INODES_NUM + INODES_NUM * L.inode_size))).toNat

/-- The function `read_block`: it seeks to `BLOCK_SIZE * block_number` from the
start of the image file. -/
def read_block (L : Layout) (s : FS) (block_number : Nat) : List Nat :=
  (List.range BLOCK_SIZE).map (fun j => image_byte L s (BLOCK_SIZE * block_number + j))

/-- The function `is_block_empty`. -/
def is_block_empty (block_data : List Nat) : Bool := block_data.all (fun b => b == 0)

/-- The first loop of `myfs_rmdir`, with `n = BLOCKS_NUM - i0`: `some false`
when it returns `-ENOTEMPTY`, `some true` when it runs to its end. -/
def blocks_all_empty (L : Layout) (s : FS) (blocks : Nat → Nat) : Nat → Nat → Option Bool
  | 0, _ => some true
  | n + 1, i =>
    if 14 ≤ i then none
    else if blocks i = 0 then some true
    else if !is_block_empty (read_block L s (blocks i)) then some false
    else blocks_all_empty L s blocks n (i + 1)

/-- The handler `myfs_rmdir`. -/
def myfs_rmdir (L : Layout) (s : FS) (path : CStr) : Option (Int × FS) :=
  match get_inode_index s path with
  | none => some (-ENOENT, s)
  | some inode_index =>
    if !S_ISDIR (s.inodes_array inode_index).mode then some (-ENOTDIR, s)
    else
      match blocks_all_empty L s (s.inodes_array inode_index).blocks BLOCKS_NUM 0 with
      | none => none
      | some false => some (-ENOTEMPTY, s)
      | some true =>
        match free_blocks (s.inodes_array inode_index).blocks BLOCKS_NUM 0 s.block_bitmap with
        | none => none
        | some bitmap =>
          some (0, sync_inodes (sync_inode_bitmap (sync_block_bitmap
            (release_inode s inode_index bitmap))))

/-- Byte `k` of the little-endian representation of `n`. -/
def le_byte (n k : Nat) : Nat := (n / 256 ^ k) % 256

/-- The layout of `inode_t` on x86-64 Linux: `mode` at 0, `name` at 4, `size`
at 264, `links_count` at 272, `blocks` at 276, 336 bytes in all, padding and
the bytes of `name` after the string taken as zero. -/
def lp64 : Layout :=
  { inode_size := 336
    inode_byte := fun ino k =>
      if k < 4 then le_byte ino.mode k
      else if k < 260 then (ino.name.getD (k - 4) (Char.ofNat 0)).toNat
      else if k < 264 then 0
      else if k < 272 then le_byte ino.size (k - 264)
      else if k < 276 then le_byte ino.links_count (k - 272)
      else if k < 332 then le_byte (ino.blocks ((k - 276) / 4)) ((k - 276) % 4)
      else 0 }

/-- A call of one handler of `myfs_operations` with its arguments. -/
inductive Call where
  | getattr (path : CStr)
  | readdir (path : CStr)
  | mkdir (path : CStr) (mode : Nat)
  | create (path : CStr) (mode : Nat)
  | write (path : CStr) (buf : List Char) (offset : Nat) (append : Bool)
  | read (path : CStr) (size offset : Nat)
  | unlink (path : CStr)
  | rmdir (path : CStr)

/-- The globals and image a call leaves behind, whatever it returns; `none`
when the call has no defined result. -/
def exec (L : Layout) (s : FS) : Call → Option FS
  | .getattr _ => some s
  | .readdir path => (myfs_readdir s path).map (fun _ => s)
  | .mkdir path mode => (myfs_mkdir s path mode).map Prod.snd
  | .create path mode => (myfs_create s path mode).map Prod.snd
  | .write path buf offset append => (myfs_write s path buf offset append).map Prod.snd
  | .read path size offset => (myfs_read s path size offset).map (fun _ => s)
  | .unlink path => (myfs_unlink s path).map Prod.snd
  | .rmdir path => (myfs_rmdir L s path).map Prod.snd

/-- The states the program reaches from a freshly formatted image by calls of
its handlers that satisfy `allowed`. -/
inductive Reach (L : Layout) (allowed : Call → Prop) : FS → Prop where
  | init : Reach L allowed init_filesystem_image
  | step {s s1 : FS} (c : Call) :
      Reach L allowed s → allowed c → exec L s c = some s1 → Reach L allowed s1

/-- The states reachable from a freshly formatted image by any sequence of
handler calls. -/
def Reachable (L : Layout) (s : FS) : Prop := Reach L (fun _ => True) s

/-- Runs a sequence of calls from a state. -/
def run (L : Layout) : FS → List Call → Option FS
  | s, [] => some s
  | s, c :: cs =>
    match exec L s c with
    | none => none
    | some s1 => run L s1 cs

/-- The state a sequence of calls leaves, starting from `s` (and `s` itself when
one of the calls has no defined result). -/
def after (L : Layout) (s : FS) (cs : List Call) : FS := (run L s cs).getD s

/-! ### Properties of states named by the specification -/

/-- Block ownership, on the block bitmap `bm` and the table `bl` of block lists
(`bl i k` is `inodes_array[i].blocks[k]`): every non-zero entry is marked 1 in
the bitmap, and a non-zero block index occurs at one place only. -/
def Owned (bm : Nat → Nat) (bl : Nat → Nat → Nat) : Prop :=
  (∀ i k, bl i k ≠ 0 → bm (bl i k) = 1) ∧
  (∀ i j k l, bl i k ≠ 0 → bl i k = bl j l → i = j ∧ k = l)

/-- The table of block lists of a state. -/
def block_lists (s : FS) : Nat → Nat → Nat := fun i k => (s.inodes_array i).blocks k

/-- The calls other than `rmdir` and `write` on the path of the root. -/
def spares_root : Call → Prop
  | .rmdir path => path ≠ ['/']
  | .write path _ _ _ => path ≠ ['/']
  | _ => True

/-- Slot `ROOT_INODE` is allocated and holds the record the formatting put
there. -/
def root_kept (s : FS) : Prop :=
  s.inode_bitmap ROOT_INODE = 1 ∧ s.inodes_array ROOT_INODE = root_inode

/-- Whether a call, made in state `s`, keeps the array accesses of its handler
inside the arrays: `readdir` gets a path with a slash, so `strrchr` finds one;
`mkdir` and `create` get a path that fits `name[MAX_NAME_LEN]` with its
terminator; a `write` to an existing path starts at an offset (the size of the
inode under `O_APPEND`) whose `int block_index` is not negative, and so does a
`read`; `unlink` and `rmdir` meet an inode with a zero entry among its 14
`blocks` entries, where their loops stop. -/
def in_bounds (s : FS) : Call → Bool
  | .getattr _ => true
  | .readdir path => path.contains '/'
  | .mkdir path _ => decide (path.length < MAX_NAME_LEN)
  | .create path _ => decide (path.length < MAX_NAME_LEN)
  | .write path _ offset append =>
    match get_inode_index s path with
    | none => true
    | some idx =>
      decide (block_index_of (if append then (s.inodes_array idx).size else offset) < 2 ^ 31)
  | .read _ _ offset => decide (block_index_of offset < 2 ^ 31)
  | .unlink path =>
    match get_inode_index s path with
    | none => true
    | some idx => (List.range 14).any (fun k => (s.inodes_array idx).blocks k == 0)
  | .rmdir path =>
    match get_inode_index s path with
    | none => true
    | some idx => (List.range 14).any (fun k => (s.inodes_array idx).blocks k == 0)

/-- Whether every call of a sequence started in `s` is `in_bounds` in the state
in which it is made. -/
def runs_in_bounds (L : Layout) : FS → List Call → Bool
  | _, [] => true
  | s, c :: cs => in_bounds s c && runs_in_bounds L ((exec L s c).getD s) cs

/-- Slot `k` holds an allocated inode named `p` that is not a directory. -/
def holds_file (p : CStr) (k : Nat) (s : FS) : Prop :=
  k < INODES_NUM ∧ s.inode_bitmap k ≠ 0 ∧ (s.inodes_array k).name = p ∧
    S_ISDIR (s.inodes_array k).mode = false

/-- Block 0 is the first block handed out and is never freed: while it is
unmarked no block is marked and no slot has a size. -/
def block0_first (s : FS) : Prop :=
  s.block_bitmap 0 = 0 → (∀ b, s.block_bitmap b = 0) ∧ ∀ i, (s.inodes_array i).size = 0

/-- What a `myfs_write` on slot `idx`, started in state `s`, may have done by
the time it is in state `t`: blocks marked in `s` are still marked, an entry of
the blocks list is the one of `s` or a block that was free in `s`, and the
block region differs from the one of `s` only inside blocks that were free in
`s` or that the blocks list held in `s`. -/
def write_frame (s : FS) (idx : Nat) (t : FS) : Prop :=
  (∀ c, s.block_bitmap c ≠ 0 → t.block_bitmap c ≠ 0) ∧
  (∀ k, (t.inodes_array idx).blocks k ≠ 0 →
    (t.inodes_array idx).blocks k = (s.inodes_array idx).blocks k ∨
    s.block_bitmap ((t.inodes_array idx).blocks k) = 0) ∧
  (∀ a, t.data a ≠ s.data a →
    s.block_bitmap (a / BLOCK_SIZE) = 0 ∨
    ∃ k, (s.inodes_array idx).blocks k ≠ 0 ∧ (s.inodes_array idx).blocks k = a / BLOCK_SIZE)

/-- The pieces of a path between its slashes. -/
def segments : CStr → List CStr
  | [] => [[]]
  | c :: cs =>
    if c = '/' then [] :: segments cs
    else
      match segments cs with
      | [] => [[c]]
      | seg :: rest => (c :: seg) :: rest

/-- A canonical absolute path: `/`, or a slash before each of one or more
segments, none of them empty, `.` or `..`. -/
def canonical (p : CStr) : Bool :=
  p == ['/'] ||
    (match segments p with
     | [] :: segs => !segs.isEmpty && segs.all (fun g => g != [] && g != ['.'] && g != ['.', '.'])
     | _ => false)

/-- Every allocated slot stores a canonical absolute path. -/
def canonical_names (s : FS) : Prop :=
  ∀ i, i < INODES_NUM → s.inode_bitmap i ≠ 0 → canonical (s.inodes_array i).name = true

/-- The final segment of `name` when `name` is an immediate entry of the
directory `d`: `d`, a separating slash unless `d` is the root, and one
non-empty segment without a slash. -/
def immediate_segment (d name : CStr) : Option CStr :=
  let pre := if d = ['/'] then d else d ++ ['/']
  if pre.isPrefixOf name then
    let seg := name.drop pre.length
    if seg != [] && !seg.contains '/' then some seg else none
  else none

/-- The final segments of the allocated inodes that are immediate entries of
`d`, in increasing slot order. -/
def immediate_entries (s : FS) (d : CStr) : List CStr :=
  (List.range INODES_NUM).filterMap
    (fun i => if s.inode_bitmap i != 0 then immediate_segment d (s.inodes_array i).name else none)

/-- The slots `myfs_readdir` lists for `path`: allocated, with `path` a string
prefix of the stored name, the name not being `/`; in increasing order. -/
def listed_slots (s : FS) (path : CStr) : List Nat :=
  (List.range INODES_NUM).filter
    (fun i => s.inode_bitmap i != 0 && path.isPrefixOf (s.inodes_array i).name &&
      decide ((s.inodes_array i).name ≠ ['/']))

/-! ### Concrete states -/

/-- After `create("/f")` and a one-byte `write` at offset 1024 on a fresh image. -/
def st_sparse : FS :=
  after lp64 init_filesystem_image
    [.create "/f".toList 0o644, .write "/f".toList "x".toList 1024 false]

/-- After `create("/f")` and `mkdir("/f")` on a fresh image. -/
def st_twice : FS :=
  after lp64 init_filesystem_image [.create "/f".toList 0o644, .mkdir "/f".toList 0o755]

/-- After `mkdir("/a")` on a fresh image. -/
def st_a : FS := after lp64 init_filesystem_image [.mkdir "/a".toList 0o755]

/-- After `mkdir("/a")` twice on a fresh image. -/
def st_aa : FS :=
  after lp64 init_filesystem_image [.mkdir "/a".toList 0o755, .mkdir "/a".toList 0o755]

/-- After `mkdir("/a")` and `create("/a/f")` on a fresh image. -/
def st_af : FS :=
  after lp64 init_filesystem_image [.mkdir "/a".toList 0o755, .create "/a/f".toList 0o644]

/-- After `create("/f")` on a fresh image. -/
def st_f : FS := after lp64 init_filesystem_image [.create "/f".toList 0o644]

/-- After `create("/f")` and a 600-byte `write` at offset 6700, which fills the
rest of block index 13 and then returns `-EFBIG`. -/
def st_efbig : FS :=
  after lp64 init_filesystem_image
    [.create "/f".toList 0o644, .write "/f".toList (List.replicate 600 'x') 6700 false]

/-- The scenario of the specification: `mkdir("/a")`, `create("/a/f")`, a write
of `hello` and its read back, `unlink("/a/f")`, `rmdir("/a")`; then an `unlink`
of `/`. -/
def scenario_calls : List Call :=
  [.mkdir "/a".toList 0o755, .getattr "/a".toList, .create "/a/f".toList 0o644,
   .write "/a/f".toList "hello".toList 0 false, .read "/a/f".toList 5 0,
   .unlink "/a/f".toList, .rmdir "/a".toList, .unlink "/".toList]

/-- After `rmdir("/")` on a fresh image. -/
def st_rmroot : FS := after lp64 init_filesystem_image [.rmdir "/".toList]

/-- After `mkdir("/a")`, `create("/a/f")` and the write of `hello` at offset 0. -/
def st_hello : FS :=
  after lp64 init_filesystem_image
    [.mkdir "/a".toList 0o755, .create "/a/f".toList 0o644,
     .write "/a/f".toList "hello".toList 0 false]

/-- After `st_hello`, a two-byte `write` to the directory `/a` at offset 7167,
which returns `-EFBIG` after its first byte. -/
def st_iso : FS := after lp64 st_hello [.write "/a".toList "zz".toList 7167 false]

/-- After `create("/f")` and a one-byte `write` at offset `2 ^ 41`, that is
`2 ^ 32 * BLOCK_SIZE`. -/
def st_huge : FS :=
  after lp64 init_filesystem_image
    [.create "/f".toList 0o644, .write "/f".toList "x".toList (2 ^ 41) false]

/-- After `create("/f")` and a two-byte `write` at offset 7167, which puts one
byte into block index 13 and then returns `-EFBIG`. -/
def st_unsynced : FS :=
  after lp64 init_filesystem_image
    [.create "/f".toList 0o644, .write "/f".toList "xy".toList 7167 false]

/-- One-byte writes to `/f` at the start of each of the block indices 0 to 12,
and one at offset 7167, the last byte of block index 13. -/
def fill_calls : List Call :=
  (List.range 13).map (fun k => Call.write "/f".toList "x".toList (BLOCK_SIZE * k) false)
    ++ [.write "/f".toList "x".toList 7167 false]

/-- After `create("/f")` and `fill_calls`: `/f` has size 7168 and a block for every
one of its 14 block indices. -/
def st_full14 : FS :=
  after lp64 init_filesystem_image (.create "/f".toList 0o644 :: fill_calls)

/-- A state with every entry of both bitmaps 1. -/
def st_exhausted : FS :=
  { init_filesystem_image with block_bitmap := fun _ => 1, inode_bitmap := fun _ => 1 }

/-- After `create("/f")` and a one-byte `write` to `/` on a fresh image. -/
def st_wroot : FS :=
  after lp64 init_filesystem_image
    [.create "/f".toList 0o644, .write "/".toList "x".toList 0 false]

/-- A directory path of 137 characters: a slash and 136 times `a`. -/
def parent_dir : CStr := '/' :: List.replicate 136 'a'

/-- A path of 273 characters inside `parent_dir`: its final component is 135
times `a`. -/
def long_path : CStr := parent_dir ++ '/' :: List.replicate 135 'a'

/-- After `mkdir(parent_dir)` on a fresh image. -/
def st_parent : FS := after lp64 init_filesystem_image [.mkdir parent_dir 0o755]

/-- After `create("/f")`, `create("/g")` and the write of `hello` to `/g` at
offset 0 on a fresh image: `/f` is in slot 1 with block 0, `/g` in slot 2 with
block 1. -/
def st_two : FS :=
  after lp64 init_filesystem_image
    [.create "/f".toList 0o644, .create "/g".toList 0o644,
     .write "/g".toList "hello".toList 0 false]

end Myfs

namespace Myfs

/-! ## Arrays and the scanning loop -/

@[simp] theorem upd_same {α : Type} (f : Nat → α) (i : Nat) (v : α) : upd f i v i = v := by
  simp [upd]

theorem upd_other {α : Type} (f : Nat → α) {i j : Nat} (v : α) (h : j ≠ i) :
    upd f i v j = f j := by
  simp [upd, h]

theorem first_index_some {p : Nat → Bool} {n i j : Nat} (h : first_index p n i = some j) :
    i ≤ j ∧ j < i + n ∧ p j = true ∧ ∀ k, i ≤ k → k < j → p k = false := by
  induction n generalizing i with
  | zero => simp [first_index] at h
  | succ n ih =>
    unfold first_index at h
    by_cases hp : p i = true
    · rw [if_pos hp] at h
      cases h
      exact ⟨le_refl _, by omega, hp, fun k h1 h2 => by omega⟩
    · rw [if_neg hp] at h
      obtain ⟨h1, h2, h3, h4⟩ := ih h
      refine ⟨by omega, by omega, h3, fun k hk1 hk2 => ?_⟩
      by_cases hki : k = i
      · subst hki; simpa using hp
      · exact h4 k (by omega) hk2

theorem first_index_none {p : Nat → Bool} {n i : Nat} :
    first_index p n i = none ↔ ∀ k, i ≤ k → k < i + n → p k = false := by
  induction n generalizing i with
  | zero => simp [first_index]; intro k h1 h2; omega
  | succ n ih =>
    unfold first_index
    by_cases hp : p i = true
    · rw [if_pos hp]
      constructor
      · intro h; cases h
      · intro h
        have := h i (le_refl _) (by omega)
        rw [hp] at this; cases this
    · rw [if_neg hp, ih]
      constructor
      · intro h k h1 h2
        by_cases hki : k = i
        · subst hki; simpa using hp
        · exact h k (by omega) (by omega)
      · intro h k h1 h2
        exact h k (by omega) (by omega)

theorem first_index_exists {p : Nat → Bool} {n i k : Nat} (h1 : i ≤ k) (h2 : k < i + n)
    (hp : p k = true) : ∃ j, first_index p n i = some j ∧ j ≤ k := by
  cases h : first_index p n i with
  | none =>
    have := (first_index_none.mp h) k h1 h2
    rw [hp] at this; cases this
  | some j =>
    refine ⟨j, rfl, ?_⟩
    by_contra hlt
    have := (first_index_some h).2.2.2 k h1 (by omega)
    rw [hp] at this; cases this

/-- The slot `get_inode_index` returns is allocated and holds the name asked for. -/
theorem get_inode_index_some {s : FS} {name : CStr} {i : Nat}
    (h : get_inode_index s name = some i) :
    i < INODES_NUM ∧ s.inode_bitmap i ≠ 0 ∧ (s.inodes_array i).name = name ∧
      ∀ k, k < i → ¬ (s.inode_bitmap k ≠ 0 ∧ (s.inodes_array k).name = name) := by
  obtain ⟨_, h2, h3, h4⟩ := first_index_some h
  simp only [Bool.and_eq_true, bne_iff_ne, ne_eq, beq_iff_eq] at h3
  refine ⟨by omega, h3.1, h3.2, fun k hk hc => ?_⟩
  have := h4 k (Nat.zero_le _) hk
  simp [hc.1, hc.2] at this

theorem get_inode_index_none {s : FS} {name : CStr} (h : get_inode_index s name = none)
    {k : Nat} (hk : k < INODES_NUM) :
    ¬ (s.inode_bitmap k ≠ 0 ∧ (s.inodes_array k).name = name) := by
  intro hc
  have := (first_index_none.mp h) k (Nat.zero_le _) (by omega)
  simp [hc.1, hc.2] at this

theorem get_inode_index_exists {s : FS} {name : CStr} {k : Nat} (hk : k < INODES_NUM)
    (hb : s.inode_bitmap k ≠ 0) (hn : (s.inodes_array k).name = name) :
    ∃ j, get_inode_index s name = some j ∧ j ≤ k :=
  first_index_exists (Nat.zero_le _) (by omega) (by simp [hb, hn])

theorem find_free_bit_some {bitmap : Nat → Nat} {size i : Nat}
    (h : find_free_bit bitmap size = some i) :
    i < size ∧ bitmap i = 0 ∧ ∀ k, k < i → bitmap k ≠ 0 := by
  obtain ⟨_, h2, h3, h4⟩ := first_index_some h
  refine ⟨by omega, by simpa using h3, fun k hk => ?_⟩
  simpa using h4 k (Nat.zero_le _) hk

theorem find_free_block_some {s : FS} {i : Nat} (h : find_free_block s = some i) :
    i < BLOCKS_NUM ∧ s.block_bitmap i = 0 ∧ ∀ k, k < i → s.block_bitmap k ≠ 0 :=
  @find_free_bit_some s.block_bitmap BLOCKS_NUM i h

/-! ## create and mkdir -/

/-- What a successful `myfs_create` did. -/
theorem myfs_create_ok {s s1 : FS} {path : CStr} {mode : Nat}
    (h : myfs_create s path mode = some (0, s1)) :
    get_inode_index s path = none ∧ path.length < MAX_NAME_LEN ∧
    ∃ free_inode free_block,
      find_free_bit s.inode_bitmap INODES_NUM = some free_inode ∧
      find_free_bit s.block_bitmap BLOCKS_NUM = some free_block ∧
      s1.inode_bitmap = upd s.inode_bitmap free_inode 1 ∧
      s1.block_bitmap = upd s.block_bitmap free_block 1 ∧
      s1.inodes_array = upd s.inodes_array free_inode
        { mode := S_IFREG ||| mode, name := path, size := 0, links_count := 1
          blocks := upd (fun _ => 0) 0 free_block } ∧
      s1.data = s.data := by
  unfold myfs_create at h
  cases hg : get_inode_index s path with
  | some i => rw [hg] at h; simp at h
  | none =>
    rw [hg] at h
    cases hi : find_free_bit s.inode_bitmap INODES_NUM with
    | none => rw [hi] at h; simp at h
    | some fi =>
      rw [hi] at h
      cases hb : find_free_bit s.block_bitmap BLOCKS_NUM with
      | none => rw [hb] at h; simp at h
      | some fb =>
        rw [hb] at h
        by_cases hl : MAX_NAME_LEN ≤ path.length
        · simp [hl] at h
        · simp only [hl, if_false, Option.some.injEq, Prod.mk.injEq, true_and] at h
          subst h
          exact ⟨rfl, by omega, fi, fb, rfl, rfl, rfl, rfl, rfl, rfl⟩

/-- What a successful `myfs_mkdir` did. -/
theorem myfs_mkdir_ok {s s1 : FS} {path : CStr} {mode : Nat}
    (h : myfs_mkdir s path mode = some (0, s1)) :
    path.length < MAX_NAME_LEN ∧
    ∃ free_inode,
      find_free_bit s.inode_bitmap INODES_NUM = some free_inode ∧
      s1.inode_bitmap = upd s.inode_bitmap free_inode 1 ∧
      s1.block_bitmap = s.block_bitmap ∧
      s1.inodes_array = upd s.inodes_array free_inode
        { s.inodes_array free_inode with
          mode := S_IFDIR ||| mode, size := 0, links_count := 2, name := path } ∧
      s1.data = s.data := by
  unfold myfs_mkdir at h
  cases hi : find_free_bit s.inode_bitmap INODES_NUM with
  | none => rw [hi] at h; simp at h
  | some fi =>
    rw [hi] at h
    by_cases hl : MAX_NAME_LEN ≤ path.length
    · simp [hl] at h
    · simp only [hl, if_false, Option.some.injEq, Prod.mk.injEq, true_and] at h
      subst h
      exact ⟨by omega, fi, rfl, rfl, rfl, rfl, rfl⟩

/-- On a path that resolves, `myfs_create` returns `-EEXIST` and changes nothing. -/
theorem myfs_create_exists {s : FS} {path : CStr} {i : Nat} (mode : Nat)
    (h : get_inode_index s path = some i) : myfs_create s path mode = some (-EEXIST, s) := by
  unfold myfs_create
  rw [h]

/-- When `myfs_create` succeeds on a path, a `myfs_create` on the same path made
right after it returns `-EEXIST` and leaves the whole state, so the two bitmaps
and the inode table, as it was before that second call. -/
theorem create_twice_eexist (s s1 : FS) (path : CStr) (mode mode2 : Nat)
    (h : myfs_create s path mode = some (0, s1)) :
    myfs_create s1 path mode2 = some (-EEXIST, s1) := by
  obtain ⟨_, _, fi, fb, hfi, _, hbm, _, harr, _⟩ := myfs_create_ok h
  have hlt := (find_free_bit_some hfi).1
  obtain ⟨j, hj, _⟩ := @get_inode_index_exists s1 path fi hlt
    (by rw [hbm]; simp) (by rw [harr]; simp)
  exact myfs_create_exists mode2 hj

/-- C5: after a successful `myfs_create` or `myfs_mkdir` of a path, in a state
whose inode bitmap holds only 0 and 1, `get_inode_index` of that path returns
a slot whose bitmap entry is 1 and whose stored name is the path. -/
theorem created_node_resolves (s s1 : FS) (path : CStr) (mode : Nat)
    (hbits : ∀ j, s.inode_bitmap j ≤ 1)
    (h : myfs_create s path mode = some (0, s1) ∨ myfs_mkdir s path mode = some (0, s1)) :
    ∃ i, get_inode_index s1 path = some i ∧ i < INODES_NUM ∧ s1.inode_bitmap i = 1 ∧
      (s1.inodes_array i).name = path := by
  have key : ∃ fi, fi < INODES_NUM ∧ s1.inode_bitmap = upd s.inode_bitmap fi 1 ∧
      (s1.inodes_array fi).name = path := by
    rcases h with h | h
    · obtain ⟨_, _, fi, fb, hfi, _, hbm, _, harr, _⟩ := myfs_create_ok h
      exact ⟨fi, (find_free_bit_some hfi).1, hbm, by rw [harr]; simp⟩
    · obtain ⟨_, fi, hfi, hbm, _, harr, _⟩ := myfs_mkdir_ok h
      exact ⟨fi, (find_free_bit_some hfi).1, hbm, by rw [harr]; simp⟩
  obtain ⟨fi, hlt, hbm, hname⟩ := key
  obtain ⟨j, hj, _⟩ := @get_inode_index_exists s1 path fi hlt
    (by rw [hbm]; simp) hname
  obtain ⟨hj1, hj2, hj3, _⟩ := get_inode_index_some hj
  refine ⟨j, hj, hj1, ?_, hj3⟩
  rw [hbm] at hj2 ⊢
  by_cases hjf : j = fi
  · subst hjf; simp
  · rw [upd_other _ _ hjf] at hj2 ⊢
    have := hbits j
    omega

/-- Witness of `create_twice_eexist`: `create("/f")` twice on a fresh image. -/
theorem create_twice_eexist_witness :
    myfs_create init_filesystem_image "/f".toList 0o644 = some (0, st_f) ∧
    myfs_create st_f "/f".toList 0o600 = some (-EEXIST, st_f) :=
  ⟨rfl, create_twice_eexist init_filesystem_image st_f "/f".toList 0o644 0o600 rfl⟩

theorem init_inode_bitmap_le (j : Nat) : init_filesystem_image.inode_bitmap j ≤ 1 := by
  simp only [init_filesystem_image, upd]
  split <;> omega

/-- Witness of `created_node_resolves`: `mkdir("/a")` on a fresh image. -/
theorem created_node_resolves_witness :
    (∀ j, init_filesystem_image.inode_bitmap j ≤ 1) ∧
    myfs_mkdir init_filesystem_image "/a".toList 0o755 = some (0, st_a) ∧
    ∃ i, get_inode_index st_a "/a".toList = some i ∧ i < INODES_NUM ∧
      st_a.inode_bitmap i = 1 ∧ (st_a.inodes_array i).name = "/a".toList :=
  ⟨init_inode_bitmap_le, rfl,
    created_node_resolves init_filesystem_image st_a "/a".toList 0o755 init_inode_bitmap_le
      (Or.inr rfl)⟩

/-! ## Reachability -/

theorem reach_run {L : Layout} {allowed : Call → Prop} {s s1 : FS} (cs : List Call)
    (hs : Reach L allowed s) (hall : ∀ c ∈ cs, allowed c) (h : run L s cs = some s1) :
    Reach L allowed s1 := by
  induction cs generalizing s with
  | nil => simp [run] at h; subst h; exact hs
  | cons c cs ih =>
    unfold run at h
    cases hc : exec L s c with
    | none => rw [hc] at h; cases h
    | some s2 =>
      rw [hc] at h
      exact ih (Reach.step c hs (hall c (List.mem_cons_self _ _)) hc)
        (fun c1 h1 => hall c1 (List.mem_cons_of_mem _ h1)) h

theorem reach_after {L : Layout} {allowed : Call → Prop} (cs : List Call)
    (hall : ∀ c ∈ cs, allowed c) (h : (run L init_filesystem_image cs).isSome = true) :
    Reach L allowed (after L init_filesystem_image cs) := by
  cases hr : run L init_filesystem_image cs with
  | none => rw [hr] at h; cases h
  | some s1 =>
    have : after L init_filesystem_image cs = s1 := by simp [after, hr]
    rw [this]
    exact reach_run cs Reach.init hall hr

theorem reachable_after {L : Layout} (cs : List Call)
    (h : (run L init_filesystem_image cs).isSome = true) :
    Reachable L (after L init_filesystem_image cs) :=
  reach_after cs (fun _ _ => trivial) h

/-! ## Behaviour at concrete inputs -/

set_option maxRecDepth 20000 in
/-- C2: on the reachable state left by `create("/f")` and a one-byte write at
offset 1024, the regular file `/f` holds block 1 in `blocks[2]` behind two zero
entries; `myfs_unlink("/f")` returns 0 and block 1 still has bitmap entry 1. -/
theorem unlink_sparse_keeps_block :
    Reachable lp64 st_sparse ∧
    get_inode_index st_sparse "/f".toList = some 1 ∧
    S_ISREG (st_sparse.inodes_array 1).mode = true ∧
    (st_sparse.inodes_array 1).blocks 0 = 0 ∧
    (st_sparse.inodes_array 1).blocks 2 = 1 ∧
    (myfs_unlink st_sparse "/f".toList).map Prod.fst = some 0 ∧
    (myfs_unlink st_sparse "/f".toList).map (fun r => r.2.block_bitmap 1) = some 1 := by
  refine ⟨reachable_after _ (by decide), ?_, ?_, ?_, ?_, ?_, ?_⟩ <;> decide

set_option maxRecDepth 20000 in
/-- C3: on the reachable state left by `create("/f")` and `mkdir("/f")`,
`myfs_unlink("/f")` returns 0 and `get_inode_index("/f")` afterwards returns
slot 2. -/
theorem unlink_leaves_second_name :
    Reachable lp64 st_twice ∧
    (myfs_unlink st_twice "/f".toList).map Prod.fst = some 0 ∧
    (myfs_unlink st_twice "/f".toList).map (fun r => get_inode_index r.2 "/f".toList)
      = some (some 2) := by
  refine ⟨reachable_after _ (by decide), ?_, ?_⟩ <;> decide

set_option maxRecDepth 20000 in
/-- C6: after `mkdir("/a")` succeeds on a fresh image, `get_inode_index("/a")`
returns slot 1 and `myfs_readdir("/a")` returns `-ENOENT` with no entry
emitted. -/
theorem readdir_subdir_enoent :
    (myfs_mkdir init_filesystem_image "/a".toList 0o755).map Prod.fst = some 0 ∧
    Reachable lp64 st_a ∧
    get_inode_index st_a "/a".toList = some 1 ∧
    myfs_readdir st_a "/a".toList = some (-ENOENT, []) := by
  refine ⟨?_, reachable_after _ (by decide), ?_, ?_⟩ <;> decide

set_option maxRecDepth 20000 in
/-- C10: after `mkdir("/a")` twice on a fresh image, both calls having returned
0, slots 1 and 2 are allocated and both store the name `/a`. -/
theorem mkdir_twice_same_name :
    (myfs_mkdir init_filesystem_image "/a".toList 0o755).map Prod.fst = some 0 ∧
    (myfs_mkdir st_a "/a".toList 0o755).map Prod.fst = some 0 ∧
    Reachable lp64 st_aa ∧
    st_aa.inode_bitmap 1 = 1 ∧ st_aa.inode_bitmap 2 = 1 ∧
    (st_aa.inodes_array 1).name = "/a".toList ∧
    (st_aa.inodes_array 2).name = "/a".toList := by
  refine ⟨?_, ?_, reachable_after _ (by decide), ?_, ?_, ?_, ?_⟩ <;> decide

/-! ## readdir -/

theorem after_last_none {c : Char} {p : CStr} : after_last c p = none ↔ c ∉ p := by
  induction p with
  | nil => simp [after_last]
  | cons x xs ih =>
    unfold after_last
    cases h : after_last c xs with
    | some t =>
      have : ¬ c ∉ xs := fun hc => by rw [ih.mpr hc] at h; cases h
      simp only [List.mem_cons, not_or]
      constructor
      · intro h1; cases h1
      · intro h1; exact absurd h1.2 this
    | none =>
      have hc := ih.mp h
      by_cases hx : x = c
      · simp [hx]
      · simp only [hx, if_false, List.mem_cons, not_or, true_iff]
        exact ⟨fun e => hx e.symm, hc⟩

theorem after_last_some {c : Char} {p t : CStr} (h : after_last c p = some t) :
    ∃ pre, p = pre ++ c :: t ∧ c ∉ t := by
  induction p with
  | nil => simp [after_last] at h
  | cons x xs ih =>
    unfold after_last at h
    cases hx : after_last c xs with
    | some t1 =>
      rw [hx] at h
      simp only [Option.some.injEq] at h
      subst h
      obtain ⟨pre, hp, hn⟩ := ih hx
      exact ⟨x :: pre, by rw [hp]; rfl, hn⟩
    | none =>
      rw [hx] at h
      by_cases hxc : x = c
      · simp only [hxc, if_true, Option.some.injEq] at h
        subst h
        exact ⟨[], by simp [hxc], after_last_none.mp hx⟩
      · simp [hxc] at h

/-- The listing loop emits, for the listed slots in order, the part of the
name after its last slash. -/
theorem readdir_loop_eq (s : FS) (path : CStr) (n i : Nat) :
    readdir_loop s path n i =
      ((List.range' i n).filter
        (fun i => s.inode_bitmap i != 0 && path.isPrefixOf (s.inodes_array i).name &&
          decide ((s.inodes_array i).name ≠ ['/']))).map
        (fun i => get_word_after_last_slash (s.inodes_array i).name) := by
  induction n generalizing i with
  | zero => simp [readdir_loop]
  | succ n ih =>
    unfold readdir_loop
    rw [List.range'_succ, List.filter_cons, ih (i + 1)]
    by_cases h1 : (s.inode_bitmap i != 0 && path.isPrefixOf (s.inodes_array i).name) = true
    · by_cases h2 : (s.inodes_array i).name = ['/']
      · simp [h1, h2]
      · simp [h1, h2]
    · simp [h1]

/-- C7, as amended: whenever `myfs_readdir` returns 0, what it emits after `.`
and `..` is, for every allocated slot whose stored name has the given path as a
string prefix and is not `/`, in increasing slot order, the part of the stored
name after its last slash (so one slash-free final segment per such slot,
nested entries and prefix-sharing siblings included). -/
theorem readdir_lists_prefixed (s : FS) (path : CStr) (es : List CStr)
    (h : myfs_readdir s path = some (0, es)) :
    es = ['.'] :: ['.', '.'] ::
        (listed_slots s path).map (fun i => get_word_after_last_slash (s.inodes_array i).name) ∧
    ∀ i ∈ listed_slots s path,
      i < INODES_NUM ∧ s.inode_bitmap i ≠ 0 ∧ path <+: (s.inodes_array i).name ∧
      ∃ pre, (s.inodes_array i).name =
          pre ++ '/' :: get_word_after_last_slash (s.inodes_array i).name ∧
        '/' ∉ get_word_after_last_slash (s.inodes_array i).name := by
  unfold myfs_readdir at h
  cases hp : after_last '/' path with
  | none => rw [hp] at h; cases h
  | some name =>
    simp only [hp] at h
    obtain ⟨pre0, hpath, _⟩ := after_last_some hp
    cases hg : get_inode_index s (if name = [] then ['/'] else name) with
    | none => rw [hg] at h; simp at h
    | some idx =>
      rw [hg] at h
      simp only [Option.some.injEq, Prod.mk.injEq, true_and] at h
      constructor
      · rw [← h, readdir_loop_eq, listed_slots, List.range_eq_range']
      · intro i hi
        simp only [listed_slots, List.mem_filter, List.mem_range, Bool.and_eq_true, bne_iff_ne,
          ne_eq, decide_eq_true_eq, List.isPrefixOf_iff_prefix] at hi
        obtain ⟨hlt, ⟨hb, hpre⟩, _⟩ := hi
        refine ⟨hlt, hb, hpre, ?_⟩
        have hmem : '/' ∈ (s.inodes_array i).name := by
          obtain ⟨t, ht⟩ := hpre
          rw [← ht, hpath]
          simp
        cases hn : after_last '/' (s.inodes_array i).name with
        | none => exact absurd hmem (after_last_none.mp hn)
        | some t =>
          obtain ⟨pre, h1, h2⟩ := after_last_some hn
          refine ⟨pre, ?_, ?_⟩
          · simp only [get_word_after_last_slash, hn]
            exact h1
          · simp only [get_word_after_last_slash, hn]
            exact h2

set_option maxRecDepth 20000 in
/-- Witness of `readdir_lists_prefixed`: listing `/` after `mkdir("/a")` and
`create("/a/f")`. -/
theorem readdir_lists_prefixed_witness :
    myfs_readdir st_af "/".toList = some (0, [".".toList, "..".toList, "a".toList, "f".toList]) ∧
    listed_slots st_af "/".toList = [1, 2] ∧
    ∀ i ∈ listed_slots st_af "/".toList,
      i < INODES_NUM ∧ st_af.inode_bitmap i ≠ 0 ∧ "/".toList <+: (st_af.inodes_array i).name ∧
      ∃ pre, (st_af.inodes_array i).name =
          pre ++ '/' :: get_word_after_last_slash (st_af.inodes_array i).name ∧
        '/' ∉ get_word_after_last_slash (st_af.inodes_array i).name :=
  ⟨by decide, by decide,
    (readdir_lists_prefixed st_af "/".toList
      [".".toList, "..".toList, "a".toList, "f".toList] (by decide)).2⟩

set_option maxRecDepth 20000 in
/-- C7, counterexample: after `mkdir("/a")` and `create("/a/f")` on a fresh image
all stored names are canonical absolute paths and `myfs_readdir("/")` returns 0,
the only immediate entry of `/` is `a`, yet the listing emits `a` and `f`. -/
theorem readdir_root_lists_nested :
    Reachable lp64 st_af ∧
    (∀ i, i < INODES_NUM → st_af.inode_bitmap i ≠ 0 →
      canonical (st_af.inodes_array i).name = true) ∧
    myfs_readdir st_af "/".toList
      = some (0, [".".toList, "..".toList, "a".toList, "f".toList]) ∧
    immediate_entries st_af "/".toList = ["a".toList] := by
  refine ⟨reachable_after _ (by decide), ?_, ?_, ?_⟩ <;> decide

/-! ## What each handler does to the state -/

/-- A property kept by the allocation of a block to slot `idx` and by writes to
the block region is kept by the loop of `myfs_write`, however the loop ends. -/
theorem write_loop_inv {idx : Nat} (P : FS → Prop)
    (halloc : ∀ t k b, P t → k < 14 → (t.inodes_array idx).blocks k = 0 →
      find_free_block t = some b → P (alloc_block t idx k b))
    (hdata : ∀ t pos bytes, P t → P (put_data t pos bytes)) :
    ∀ (fuel : Nat) (s : FS) (buf : List Char) (offset bw : Nat) (r : WriteExit) (s1 : FS),
      P s → write_loop idx fuel s buf offset bw = some (r, s1) → P s1 := by
  intro fuel
  induction fuel with
  | zero =>
    intro s buf offset bw r s1 hP h
    cases buf with
    | nil => simp only [write_loop, Option.some.injEq, Prod.mk.injEq] at h; rw [← h.2]; exact hP
    | cons c cs => simp [write_loop] at h
  | succ fuel ih =>
    intro s buf offset bw r s1 hP h
    cases buf with
    | nil => simp only [write_loop, Option.some.injEq, Prod.mk.injEq] at h; rw [← h.2]; exact hP
    | cons c cs =>
      simp only [write_loop] at h
      split at h
      · cases h
      · split at h
        · simp only [Option.some.injEq, Prod.mk.injEq] at h; rw [← h.2]; exact hP
        · rename_i h31 h14
          split at h
          · simp only [Option.some.injEq, Prod.mk.injEq] at h; rw [← h.2]; exact hP
          · rename_i t ht
            have hPt : P t := by
              unfold ensure_block at ht
              split at ht
              · rename_i hz
                split at ht
                · cases ht
                · rename_i b hb
                  simp only [Option.some.injEq] at ht
                  rw [← ht]
                  exact halloc s _ b hP (by omega) hz hb
              · simp only [Option.some.injEq] at ht; rw [← ht]; exact hP
            exact ih _ _ _ _ _ _ (hdata _ _ _ hPt) h

/-- A property kept by the elementary updates of `myfs_write` on the slot the
path resolves to is kept by `myfs_write`, whatever it returns. -/
theorem myfs_write_inv (P : FS → Prop) {s s1 : FS} {path : CStr} {buf : List Char}
    {offset : Nat} {append : Bool} {r : Int}
    (h : myfs_write s path buf offset append = some (r, s1)) (hP : P s)
    (halloc : ∀ idx, get_inode_index s path = some idx → ∀ t k b, P t → k < 14 →
      (t.inodes_array idx).blocks k = 0 → find_free_block t = some b → P (alloc_block t idx k b))
    (hsize : ∀ idx, get_inode_index s path = some idx → ∀ t n, P t → P (set_size t idx n))
    (hdata : ∀ t pos bytes, P t → P (put_data t pos bytes))
    (hsync : ∀ t, P t → P (sync_block_bitmap (sync_inodes (sync_inode_bitmap t)))) :
    P s1 := by
  unfold myfs_write at h
  split at h
  · simp only [Option.some.injEq, Prod.mk.injEq] at h; rw [← h.2]; exact hP
  · split at h
    · simp only [Option.some.injEq, Prod.mk.injEq] at h; rw [← h.2]; exact hP
    · rename_i idx hidx
      simp only at h
      split at h
      · cases h
      · rename_i code t ht
        simp only [Option.some.injEq, Prod.mk.injEq] at h
        rw [← h.2]
        exact write_loop_inv P (halloc idx hidx) hdata _ _ _ _ _ _ _ hP ht
      · rename_i off1 bw t ht
        simp only [Option.some.injEq, Prod.mk.injEq] at h
        rw [← h.2]
        have hPt : P t := write_loop_inv P (halloc idx hidx) hdata _ _ _ _ _ _ _ hP ht
        apply hsync
        split
        · exact hsize idx hidx _ _ hPt
        · exact hPt

/-- The freeing loop changes the bitmap only at non-zero entries of `blocks`. -/
theorem free_blocks_changes {blocks : Nat → Nat} {n i : Nat} {bm bm1 : Nat → Nat}
    (h : free_blocks blocks n i bm = some bm1) (e : Nat) (he : bm1 e ≠ bm e) :
    bm1 e = 0 ∧ e ≠ 0 ∧ ∃ k, i ≤ k ∧ k < 14 ∧ blocks k = e := by
  induction n generalizing i bm with
  | zero => simp only [free_blocks, Option.some.injEq] at h; rw [h] at he; exact absurd rfl he
  | succ n ih =>
    simp only [free_blocks] at h
    split at h
    · cases h
    · split at h
      · simp only [Option.some.injEq] at h; rw [h] at he; exact absurd rfl he
      · rename_i h14 hz
        by_cases hc : bm1 e = upd bm (blocks i) 0 e
        · have hei : e = blocks i := by
            by_contra hne
            rw [upd_other _ _ hne] at hc
            exact he hc
          refine ⟨?_, ?_, i, le_refl _, by omega, hei.symm⟩
          · rw [hc, hei]; simp
          · rw [hei]; exact hz
        · obtain ⟨h1, h2, k, hk1, hk2, hk3⟩ := ih h hc
          exact ⟨h1, h2, k, by omega, hk2, hk3⟩

/-- The states `myfs_unlink` can leave: the one it found, or the resolved slot
released with the bitmap the freeing loop produced. -/
theorem myfs_unlink_cases {s s1 : FS} {path : CStr} {r : Int}
    (h : myfs_unlink s path = some (r, s1)) :
    (r ≠ 0 ∧ s1 = s) ∨
    (r = 0 ∧ ∃ idx bm, get_inode_index s path = some idx ∧
      S_ISREG (s.inodes_array idx).mode = true ∧
      free_blocks (s.inodes_array idx).blocks BLOCKS_NUM 0 s.block_bitmap = some bm ∧
      s1 = sync_inodes (sync_inode_bitmap (sync_block_bitmap (release_inode s idx bm)))) := by
  unfold myfs_unlink at h
  split at h
  · simp only [Option.some.injEq, Prod.mk.injEq] at h
    exact Or.inl ⟨by rw [← h.1]; decide, h.2.symm⟩
  · rename_i idx hidx
    split at h
    · simp only [Option.some.injEq, Prod.mk.injEq] at h
      exact Or.inl ⟨by rw [← h.1]; decide, h.2.symm⟩
    · rename_i hreg
      split at h
      · cases h
      · rename_i bm hbm
        simp only [Option.some.injEq, Prod.mk.injEq] at h
        exact Or.inr ⟨h.1.symm, idx, bm, hidx, by simpa using hreg, hbm, h.2.symm⟩

/-- The states `myfs_rmdir` can leave. -/
theorem myfs_rmdir_cases {L : Layout} {s s1 : FS} {path : CStr} {r : Int}
    (h : myfs_rmdir L s path = some (r, s1)) :
    (r ≠ 0 ∧ s1 = s) ∨
    (r = 0 ∧ ∃ idx bm, get_inode_index s path = some idx ∧
      S_ISDIR (s.inodes_array idx).mode = true ∧
      free_blocks (s.inodes_array idx).blocks BLOCKS_NUM 0 s.block_bitmap = some bm ∧
      s1 = sync_inodes (sync_inode_bitmap (sync_block_bitmap (release_inode s idx bm)))) := by
  unfold myfs_rmdir at h
  split at h
  · simp only [Option.some.injEq, Prod.mk.injEq] at h
    exact Or.inl ⟨by rw [← h.1]; decide, h.2.symm⟩
  · rename_i idx hidx
    split at h
    · simp only [Option.some.injEq, Prod.mk.injEq] at h
      exact Or.inl ⟨by rw [← h.1]; decide, h.2.symm⟩
    · rename_i hdir
      split at h
      · cases h
      · simp only [Option.some.injEq, Prod.mk.injEq] at h
        exact Or.inl ⟨by rw [← h.1]; decide, h.2.symm⟩
      · split at h
        · cases h
        · rename_i bm hbm
          simp only [Option.some.injEq, Prod.mk.injEq] at h
          exact Or.inr ⟨h.1.symm, idx, bm, hidx, by simpa using hdir, hbm, h.2.symm⟩

/-- The states `myfs_create` can leave. -/
theorem myfs_create_cases {s s1 : FS} {path : CStr} {mode : Nat} {r : Int}
    (h : myfs_create s path mode = some (r, s1)) :
    (r ≠ 0 ∧ s1 = s) ∨ myfs_create s path mode = some (0, s1) := by
  by_cases hr : r = 0
  · subst hr; exact Or.inr h
  · refine Or.inl ⟨hr, ?_⟩
    unfold myfs_create at h
    split at h
    · simp only [Option.some.injEq, Prod.mk.injEq] at h; exact h.2.symm
    · split at h
      · simp only [Option.some.injEq, Prod.mk.injEq] at h; exact h.2.symm
      · split at h
        · simp only [Option.some.injEq, Prod.mk.injEq] at h; exact h.2.symm
        · split at h
          · cases h
          · simp only [Option.some.injEq, Prod.mk.injEq] at h; exact absurd h.1.symm hr

/-- The states `myfs_mkdir` can leave. -/
theorem myfs_mkdir_cases {s s1 : FS} {path : CStr} {mode : Nat} {r : Int}
    (h : myfs_mkdir s path mode = some (r, s1)) :
    (r ≠ 0 ∧ s1 = s) ∨ myfs_mkdir s path mode = some (0, s1) := by
  by_cases hr : r = 0
  · subst hr; exact Or.inr h
  · refine Or.inl ⟨hr, ?_⟩
    unfold myfs_mkdir at h
    split at h
    · simp only [Option.some.injEq, Prod.mk.injEq] at h; exact h.2.symm
    · split at h
      · cases h
      · simp only [Option.some.injEq, Prod.mk.injEq] at h; exact absurd h.1.symm hr

theorem map_const_some {α : Type} {o : Option α} {s s1 : FS}
    (h : o.map (fun _ => s) = some s1) : s1 = s := by
  cases o with
  | none => cases h
  | some a => simp only [Option.map_some', Option.some.injEq] at h; exact h.symm

theorem map_snd_some {o : Option (Int × FS)} {s1 : FS} (h : o.map Prod.snd = some s1) :
    ∃ r, o = some (r, s1) := by
  cases o with
  | none => cases h
  | some a =>
    simp only [Option.map_some', Option.some.injEq] at h
    exact ⟨a.1, by rw [← h]⟩

/-! ## Block ownership -/

/-- Giving the free block `b` to one place of the table, and otherwise keeping
or zeroing entries, keeps ownership. -/
theorem owned_set {bm : Nat → Nat} {bl bl1 : Nat → Nat → Nat} {b i0 k0 : Nat}
    (hO : Owned bm bl) (hb : bm b = 0) (hnew : bl1 i0 k0 = b)
    (hold : ∀ i k, ¬ (i = i0 ∧ k = k0) → bl1 i k = bl i k ∨ bl1 i k = 0) :
    Owned (upd bm b 1) bl1 := by
  obtain ⟨h1, h2⟩ := hO
  have key : ∀ i k, ¬ (i = i0 ∧ k = k0) → bl1 i k ≠ 0 → bl1 i k = bl i k ∧ bl i k ≠ b := by
    intro i k hne hnz
    rcases hold i k hne with h | h
    · refine ⟨h, fun hc => ?_⟩
      have := h1 i k (by rw [← h]; exact hnz)
      rw [hc, hb] at this
      cases this
    · exact absurd h hnz
  constructor
  · intro i k hnz
    by_cases hik : i = i0 ∧ k = k0
    · rw [hik.1, hik.2, hnew]; simp
    · obtain ⟨he, hne⟩ := key i k hik hnz
      rw [he, upd_other _ _ hne]
      exact h1 i k (by rw [← he]; exact hnz)
  · intro i j k l hnz heq
    by_cases hik : i = i0 ∧ k = k0
    · by_cases hjl : j = i0 ∧ l = k0
      · exact ⟨hik.1.trans hjl.1.symm, hik.2.trans hjl.2.symm⟩
      · exfalso
        obtain ⟨he, hne⟩ := key j l hjl (by rw [← heq]; exact hnz)
        apply hne
        rw [← he, ← heq, hik.1, hik.2, hnew]
    · obtain ⟨he, hne⟩ := key i k hik hnz
      by_cases hjl : j = i0 ∧ l = k0
      · exfalso
        apply hne
        rw [← he, heq, hjl.1, hjl.2, hnew]
      · obtain ⟨he2, _⟩ := key j l hjl (by rw [← heq]; exact hnz)
        exact h2 i j k l (by rw [← he]; exact hnz) (by rw [← he, ← he2]; exact heq)

/-- Zeroing entries of the table, and changing the bitmap only at blocks whose
entry was zeroed, keeps ownership. -/
theorem owned_clear {bm bm1 : Nat → Nat} {bl bl1 : Nat → Nat → Nat}
    (hO : Owned bm bl) (hold : ∀ i k, bl1 i k = bl i k ∨ bl1 i k = 0)
    (hbm : ∀ e, bm1 e ≠ bm e → ∃ i k, bl i k = e ∧ bl1 i k = 0) :
    Owned bm1 bl1 := by
  obtain ⟨h1, h2⟩ := hO
  have key : ∀ i k, bl1 i k ≠ 0 → bl1 i k = bl i k := by
    intro i k hnz
    rcases hold i k with h | h
    · exact h
    · exact absurd h hnz
  constructor
  · intro i k hnz
    have he := key i k hnz
    by_cases hc : bm1 (bl1 i k) = bm (bl1 i k)
    · rw [hc, he]; exact h1 i k (by rw [← he]; exact hnz)
    · exfalso
      obtain ⟨i2, k2, h3, h4⟩ := hbm _ hc
      have := h2 i i2 k k2 (by rw [← he]; exact hnz) (by rw [← he, h3])
      rw [← this.1, ← this.2] at h4
      exact hnz h4
  · intro i j k l hnz heq
    have he := key i k hnz
    have he2 := key j l (by rw [← heq]; exact hnz)
    exact h2 i j k l (by rw [← he]; exact hnz) (by rw [← he, ← he2]; exact heq)

theorem owned_alloc_block {t : FS} {idx k b : Nat} (hO : Owned t.block_bitmap (block_lists t))
    (hb : find_free_block t = some b) :
    Owned (alloc_block t idx k b).block_bitmap (block_lists (alloc_block t idx k b)) := by
  apply @owned_set _ _ _ _ idx k hO (find_free_block_some hb).2.1
  · simp [block_lists, alloc_block]
  · intro i k1 hne
    left
    simp only [block_lists, alloc_block, upd]
    by_cases hi : i = idx
    · subst hi
      have : k1 ≠ k := fun hk => hne ⟨rfl, hk⟩
      simp [upd, this]
    · simp [hi]

theorem owned_release {s : FS} {idx : Nat} {bm : Nat → Nat}
    (hO : Owned s.block_bitmap (block_lists s))
    (hbm : free_blocks (s.inodes_array idx).blocks BLOCKS_NUM 0 s.block_bitmap = some bm) :
    Owned (release_inode s idx bm).block_bitmap (block_lists (release_inode s idx bm)) := by
  apply owned_clear hO
  · intro i k
    simp only [block_lists, release_inode, upd]
    by_cases hi : i = idx
    · right; simp [hi, zero_inode]
    · left; simp [hi]
  · intro e he
    obtain ⟨_, _, k, _, _, hk⟩ := free_blocks_changes hbm e he
    exact ⟨idx, k, hk, by simp [block_lists, release_inode, zero_inode]⟩

theorem owned_init : Owned init_filesystem_image.block_bitmap (block_lists init_filesystem_image) := by
  have hz : ∀ i k, block_lists init_filesystem_image i k = 0 := by
    intro i k
    simp only [block_lists, init_filesystem_image, upd]
    split <;> rfl
  exact ⟨fun i k h => absurd (hz i k) h, fun i j k l h _ => absurd (hz i k) h⟩

/-- Every call of a handler keeps block ownership, whatever it returns. -/
theorem exec_owned {L : Layout} {s s1 : FS} {c : Call} (h : exec L s c = some s1)
    (hO : Owned s.block_bitmap (block_lists s)) : Owned s1.block_bitmap (block_lists s1) := by
  cases c with
  | getattr path => simp only [exec, Option.some.injEq] at h; rw [← h]; exact hO
  | readdir path => rw [map_const_some h]; exact hO
  | read path size offset => rw [map_const_some h]; exact hO
  | mkdir path mode =>
    obtain ⟨r, hr⟩ := map_snd_some h
    rcases myfs_mkdir_cases hr with ⟨_, he⟩ | hok
    · rw [he]; exact hO
    · obtain ⟨_, fi, _, _, hbm, harr, _⟩ := myfs_mkdir_ok hok
      have hbl : block_lists s1 = block_lists s := by
        funext i k
        simp only [block_lists, harr, upd]
        split
        · rename_i hi; rw [hi]
        · rfl
      rw [hbm, hbl]; exact hO
  | create path mode =>
    obtain ⟨r, hr⟩ := map_snd_some h
    rcases myfs_create_cases hr with ⟨_, he⟩ | hok
    · rw [he]; exact hO
    · obtain ⟨_, _, fi, fb, _, hfb, _, hbm, harr, _⟩ := myfs_create_ok hok
      rw [hbm]
      apply @owned_set _ _ _ _ fi 0 hO (find_free_bit_some hfb).2.1
      · simp [block_lists, harr]
      · intro i k hne
        simp only [block_lists, harr, upd]
        by_cases hi : i = fi
        · have : k ≠ 0 := fun hk => hne ⟨hi, hk⟩
          right; simp [hi, upd, this]
        · left; simp [hi]
  | write path buf offset append =>
    obtain ⟨r, hr⟩ := map_snd_some h
    exact myfs_write_inv (fun t => Owned t.block_bitmap (block_lists t)) hr hO
      (fun idx _ t k b ht _ _ hb => owned_alloc_block ht hb)
      (fun idx _ t n ht => by
        have hbl : block_lists (set_size t idx n) = block_lists t := by
          funext i k
          simp only [block_lists, set_size, upd]
          split
          · rename_i hi; rw [hi]
          · rfl
        show Owned t.block_bitmap (block_lists (set_size t idx n))
        rw [hbl]; exact ht)
      (fun t pos bytes ht => ht)
      (fun t ht => ht)
  | unlink path =>
    obtain ⟨r, hr⟩ := map_snd_some h
    rcases myfs_unlink_cases hr with ⟨_, he⟩ | ⟨_, idx, bm, _, _, hbm, he⟩
    · rw [he]; exact hO
    · rw [he]; exact owned_release hO hbm
  | rmdir path =>
    obtain ⟨r, hr⟩ := map_snd_some h
    rcases myfs_rmdir_cases hr with ⟨_, he⟩ | ⟨_, idx, bm, _, _, hbm, he⟩
    · rw [he]; exact hO
    · rw [he]; exact owned_release hO hbm

theorem reach_owned {L : Layout} {allowed : Call → Prop} {s : FS} (h : Reach L allowed s) :
    Owned s.block_bitmap (block_lists s) := by
  induction h with
  | init => exact owned_init
  | step c _ _ hex ih => exact exec_owned hex ih

/-- Block ownership while every call stays inside the arrays: in every state
reachable from a freshly formatted image by handler calls that have a defined
result, whatever they returned, every non-zero entry of the blocks list of an
allocated inode has block bitmap entry 1, and a non-zero block index stands at
one place only: not in the lists of two allocated inodes, nor twice in one
list. -/
theorem block_ownership (L : Layout) (s : FS) (h : Reachable L s) :
    (∀ i, i < INODES_NUM → s.inode_bitmap i ≠ 0 → ∀ k, k < 14 →
      (s.inodes_array i).blocks k ≠ 0 → s.block_bitmap ((s.inodes_array i).blocks k) = 1) ∧
    (∀ i j, i < INODES_NUM → j < INODES_NUM → s.inode_bitmap i ≠ 0 → s.inode_bitmap j ≠ 0 →
      ∀ k l, k < 14 → l < 14 → (s.inodes_array i).blocks k ≠ 0 →
        (s.inodes_array i).blocks k = (s.inodes_array j).blocks l → i = j ∧ k = l) := by
  obtain ⟨h1, h2⟩ := reach_owned h
  exact ⟨fun i _ _ k _ hnz => h1 i k hnz, fun i j _ _ _ _ k l _ _ hnz heq => h2 i j k l hnz heq⟩

set_option maxRecDepth 40000 in
/-- Witness of `block_ownership`: the state left by `create("/f")` and a write
that allocates a block for index 13 and then stops with `-EFBIG`. -/
theorem block_ownership_witness :
    Reachable lp64 st_efbig ∧
    (myfs_write st_f "/f".toList (List.replicate 600 'x') 6700 false).map Prod.fst
      = some (-EFBIG) ∧
    (st_efbig.inodes_array 1).blocks 13 = 1 ∧
    ((∀ i, i < INODES_NUM → st_efbig.inode_bitmap i ≠ 0 → ∀ k, k < 14 →
      (st_efbig.inodes_array i).blocks k ≠ 0 →
        st_efbig.block_bitmap ((st_efbig.inodes_array i).blocks k) = 1) ∧
    (∀ i j, i < INODES_NUM → j < INODES_NUM → st_efbig.inode_bitmap i ≠ 0 →
      st_efbig.inode_bitmap j ≠ 0 → ∀ k l, k < 14 → l < 14 →
        (st_efbig.inodes_array i).blocks k ≠ 0 →
        (st_efbig.inodes_array i).blocks k = (st_efbig.inodes_array j).blocks l →
        i = j ∧ k = l)) :=
  ⟨reachable_after _ (by decide), by decide, by decide,
    block_ownership lp64 st_efbig (reachable_after _ (by decide))⟩

/-! ## The root slot -/

theorem root_not_reg : S_ISREG root_inode.mode = false := by decide

/-- A slot that `get_inode_index` returns for a path other than `/` is not the
root slot, as long as the root slot stores `/`. -/
theorem resolved_ne_root {s : FS} {path : CStr} {idx : Nat} (hroot : root_kept s)
    (hp : path ≠ ['/']) (h : get_inode_index s path = some idx) : idx ≠ ROOT_INODE := by
  intro hc
  have hn := (get_inode_index_some h).2.2.1
  rw [hc, hroot.2] at hn
  exact hp hn.symm

theorem root_kept_of_eq {s t : FS} (hroot : root_kept s)
    (h1 : t.inode_bitmap ROOT_INODE = s.inode_bitmap ROOT_INODE)
    (h2 : t.inodes_array ROOT_INODE = s.inodes_array ROOT_INODE) : root_kept t :=
  ⟨h1.trans hroot.1, h2.trans hroot.2⟩

/-- A free slot is not the root slot. -/
theorem free_ne_root {s : FS} {fi : Nat} (hroot : root_kept s)
    (h : find_free_bit s.inode_bitmap INODES_NUM = some fi) : fi ≠ ROOT_INODE := by
  intro hc
  have := (find_free_bit_some h).2.1
  rw [hc, hroot.1] at this
  cases this

theorem root_kept_release {s : FS} {idx : Nat} {bm : Nat → Nat} (hroot : root_kept s)
    (hne : idx ≠ ROOT_INODE) : root_kept (release_inode s idx bm) :=
  root_kept_of_eq hroot (by simp [release_inode, upd_other _ _ (Ne.symm hne)])
    (by simp [release_inode, upd_other _ _ (Ne.symm hne)])

/-- Every call other than `rmdir` and `write` on `/` leaves the root slot as it
is. -/
theorem exec_root_kept {L : Layout} {s s1 : FS} {c : Call} (h : exec L s c = some s1)
    (hc : spares_root c) (hroot : root_kept s) : root_kept s1 := by
  cases c with
  | getattr path => simp only [exec, Option.some.injEq] at h; rw [← h]; exact hroot
  | readdir path => rw [map_const_some h]; exact hroot
  | read path size offset => rw [map_const_some h]; exact hroot
  | mkdir path mode =>
    obtain ⟨r, hr⟩ := map_snd_some h
    rcases myfs_mkdir_cases hr with ⟨_, he⟩ | hok
    · rw [he]; exact hroot
    · obtain ⟨_, fi, hfi, hbm, _, harr, _⟩ := myfs_mkdir_ok hok
      have hne := free_ne_root hroot hfi
      exact root_kept_of_eq hroot (by rw [hbm, upd_other _ _ (Ne.symm hne)])
        (by rw [harr, upd_other _ _ (Ne.symm hne)])
  | create path mode =>
    obtain ⟨r, hr⟩ := map_snd_some h
    rcases myfs_create_cases hr with ⟨_, he⟩ | hok
    · rw [he]; exact hroot
    · obtain ⟨_, _, fi, fb, hfi, _, hbm, _, harr, _⟩ := myfs_create_ok hok
      have hne := free_ne_root hroot hfi
      exact root_kept_of_eq hroot (by rw [hbm, upd_other _ _ (Ne.symm hne)])
        (by rw [harr, upd_other _ _ (Ne.symm hne)])
  | write path buf offset append =>
    obtain ⟨r, hr⟩ := map_snd_some h
    have hp : path ≠ ['/'] := hc
    exact myfs_write_inv root_kept hr hroot
      (fun idx hidx t k b ht _ _ _ => by
        have hne := resolved_ne_root hroot hp hidx
        exact root_kept_of_eq ht rfl (by simp [alloc_block, upd_other _ _ (Ne.symm hne)]))
      (fun idx hidx t n ht => by
        have hne := resolved_ne_root hroot hp hidx
        exact root_kept_of_eq ht rfl (by simp [set_size, upd_other _ _ (Ne.symm hne)]))
      (fun t pos bytes ht => ht)
      (fun t ht => ht)
  | unlink path =>
    obtain ⟨r, hr⟩ := map_snd_some h
    rcases myfs_unlink_cases hr with ⟨_, he⟩ | ⟨_, idx, bm, hidx, hreg, _, he⟩
    · rw [he]; exact hroot
    · rw [he]
      refine @root_kept_release s idx bm hroot ?_
      intro hi
      rw [hi, hroot.2, root_not_reg] at hreg
      cases hreg
  | rmdir path =>
    obtain ⟨r, hr⟩ := map_snd_some h
    have hp : path ≠ ['/'] := hc
    rcases myfs_rmdir_cases hr with ⟨_, he⟩ | ⟨_, idx, bm, hidx, _, _, he⟩
    · rw [he]; exact hroot
    · rw [he]
      exact @root_kept_release s idx bm hroot (resolved_ne_root hroot hp hidx)

theorem reach_root_kept {L : Layout} {s : FS} (h : Reach L spares_root s) : root_kept s := by
  induction h with
  | init => exact ⟨by simp [init_filesystem_image], by simp [init_filesystem_image]⟩
  | step c _ hc hex ih => exact exec_root_kept hex hc ih

set_option maxRecDepth 40000 in
/-- C8, counterexample: `rmdir("/")` on a fresh image returns 0 and leaves slot
`ROOT_INODE` free with an empty name; and after `create("/f")` a one-byte
`write` to `/` returns 1 and leaves block 1 in the blocks list of the root. -/
theorem root_freed_by_rmdir :
    (myfs_rmdir lp64 init_filesystem_image "/".toList).map Prod.fst = some 0 ∧
    Reachable lp64 st_rmroot ∧
    st_rmroot.inode_bitmap ROOT_INODE = 0 ∧
    (st_rmroot.inodes_array ROOT_INODE).name = [] ∧
    S_ISDIR (st_rmroot.inodes_array ROOT_INODE).mode = false ∧
    (myfs_write st_f "/".toList "x".toList 0 false).map Prod.fst = some 1 ∧
    Reachable lp64 st_wroot ∧
    (st_wroot.inodes_array ROOT_INODE).blocks 0 = 1 := by
  refine ⟨?_, reachable_after _ (by decide), ?_, ?_, ?_, ?_, reachable_after _ (by decide), ?_⟩
    <;> decide

/-! ## Write then read -/

theorem put_data_outside (t : FS) (pos : Nat) (bytes : List Char) (a : Nat)
    (ha : a < pos ∨ pos + bytes.length ≤ a) : (put_data t pos bytes).data a = t.data a := by
  simp only [put_data, pwrite_data]
  rw [if_neg (by omega)]

theorem write_loop_nil (idx fuel : Nat) (s : FS) (offset bw : Nat) :
    write_loop idx fuel s [] offset bw = some (.done offset bw, s) := by
  cases fuel <;> simp [write_loop]

/-- The loop of `myfs_write` does not depend on the bound on its iterations
once the bound is at least the number of bytes left: it never runs out of it. -/
theorem write_loop_fuel (idx : Nat) :
    ∀ (fuel fuel2 : Nat) (s : FS) (buf : List Char) (offset bw : Nat),
      buf.length ≤ fuel → buf.length ≤ fuel2 →
      write_loop idx fuel s buf offset bw = write_loop idx fuel2 s buf offset bw := by
  intro fuel
  induction fuel with
  | zero =>
    intro fuel2 s buf offset bw h1 _
    have hnil : buf = [] := List.length_eq_zero.mp (by omega)
    subst hnil
    rw [write_loop_nil, write_loop_nil]
  | succ fuel ih =>
    intro fuel2 s buf offset bw h1 h2
    cases buf with
    | nil => rw [write_loop_nil, write_loop_nil]
    | cons c cs =>
      cases fuel2 with
      | zero => simp at h2
      | succ fuel2 =>
        rw [write_loop, write_loop]
        have hmod : offset % BLOCK_SIZE < BLOCK_SIZE := Nat.mod_lt _ (by decide)
        have hlen : (c :: cs).length = cs.length + 1 := rfl
        split
        · rfl
        · split
          · rfl
          · split
            · rfl
            · dsimp only
              apply ih
              · rw [List.length_drop]; omega
              · rw [List.length_drop]; omega

/-- The loop of `myfs_read` does not depend on the bound on its iterations once
the bound is at least the number of bytes left. -/
theorem read_loop_fuel (s : FS) (idx : Nat) :
    ∀ (fuel fuel2 n offset : Nat), n ≤ fuel → n ≤ fuel2 →
      read_loop s idx fuel n offset = read_loop s idx fuel2 n offset := by
  intro fuel
  induction fuel with
  | zero =>
    intro fuel2 n offset h1 _
    have : n = 0 := by omega
    subst this
    cases fuel2 <;> simp [read_loop]
  | succ fuel ih =>
    intro fuel2 n offset h1 h2
    cases n with
    | zero => cases fuel2 <;> simp [read_loop]
    | succ r =>
      cases fuel2 with
      | zero => omega
      | succ fuel2 =>
        rw [read_loop, read_loop]
        have hmod : offset % BLOCK_SIZE < BLOCK_SIZE := Nat.mod_lt _ (by decide)
        split
        · rfl
        · split
          · rfl
          · dsimp only
            rw [ih fuel2 _ _ (by omega) (by omega)]

theorem get_inode_index_congr {s t : FS} (path : CStr) (h1 : t.inode_bitmap = s.inode_bitmap)
    (h2 : ∀ i, (t.inodes_array i).name = (s.inodes_array i).name) :
    get_inode_index t path = get_inode_index s path := by
  unfold get_inode_index
  congr 1
  funext i
  rw [h1, h2]

/-- The freeing loop reads past the 14 entries of `blocks` exactly when all the
entries from its starting index on are non-zero. -/
theorem free_blocks_none_iff (blocks : Nat → Nat) :
    ∀ (n i : Nat) (bm : Nat → Nat), i ≤ 14 → 14 - i < n →
      (free_blocks blocks n i bm = none ↔ ∀ k, i ≤ k → k < 14 → blocks k ≠ 0) := by
  intro n
  induction n with
  | zero => intro i bm _ h; omega
  | succ n ih =>
    intro i bm hi hn
    rw [free_blocks]
    by_cases h14 : 14 ≤ i
    · rw [if_pos h14]
      exact ⟨fun _ k h1 h2 => by omega, fun _ => rfl⟩
    · rw [if_neg h14]
      by_cases hz : blocks i = 0
      · rw [if_pos hz]
        constructor
        · intro h; cases h
        · intro h; exact absurd hz (h i (le_refl _) (by omega))
      · rw [if_neg hz, ih (i + 1) _ (by omega) (by omega)]
        constructor
        · intro h k h1 h2
          by_cases hk : k = i
          · rw [hk]; exact hz
          · exact h k (by omega) h2
        · intro h k h1 h2
          exact h k (by omega) h2

/-- In `myfs_unlink` and `myfs_rmdir` the freeing loop reads `blocks[14]` exactly
when all 14 entries are non-zero. -/
theorem free_blocks_out_of_bounds (blocks bm : Nat → Nat) :
    free_blocks blocks BLOCKS_NUM 0 bm = none ↔ ∀ k, k < 14 → blocks k ≠ 0 := by
  rw [free_blocks_none_iff blocks BLOCKS_NUM 0 bm (by decide) (by decide)]
  exact ⟨fun h k hk => h k (Nat.zero_le _) hk, fun h k _ hk => h k hk⟩

/-! ## The capacity ceiling, the first block, persistence and the freeing loops
at concrete inputs -/

set_option maxRecDepth 20000 in
/-- C11: offset `2 ^ 41` has `offset / BLOCK_SIZE = 2 ^ 32`, which the 32-bit
`block_index` holds as 0; after `create("/f")` a one-byte `myfs_write` at that
offset returns 1 and leaves the allocated inode in slot 1 with size
`2 ^ 41 + 1`, above `MAX_FILE_SIZE`. -/
theorem huge_offset_size :
    Reachable lp64 st_huge ∧
    block_index_of (2 ^ 41) = 0 ∧
    (myfs_write st_f "/f".toList "x".toList (2 ^ 41) false).map Prod.fst = some 1 ∧
    st_huge.inode_bitmap 1 = 1 ∧
    (st_huge.inodes_array 1).size = 2 ^ 41 + 1 ∧
    MAX_FILE_SIZE < (st_huge.inodes_array 1).size := by
  refine ⟨reachable_after _ (by decide), ?_, ?_, ?_, ?_, ?_⟩ <;> decide

set_option maxRecDepth 20000 in
/-- C12: after `create("/f")`, with the append flag clear, a one-byte
`myfs_write` to `/f` at offset 7168 returns `-EFBIG`, and one at offset
`2 ^ 41`, which is above 7168, returns 1. -/
theorem huge_offset_accepted :
    Reachable lp64 st_f ∧
    get_inode_index st_f "/f".toList = some 1 ∧
    (myfs_write st_f "/f".toList "x".toList 7168 false).map Prod.fst = some (-EFBIG) ∧
    7168 ≤ 2 ^ 41 ∧ 14 ≤ 2 ^ 41 / BLOCK_SIZE ∧
    (myfs_write st_f "/f".toList "x".toList (2 ^ 41) false).map Prod.fst = some 1 := by
  refine ⟨reachable_after _ (by decide), ?_, ?_, ?_, ?_, ?_⟩ <;> decide

set_option maxRecDepth 20000 in
/-- C13: on a freshly formatted image `myfs_create("/f")` returns 0 and the new
inode, in slot 1, has size 0, `links_count` 1, `blocks[1..13]` all 0 and
`blocks[0] = 0`: the block handed out is block 0, whose bitmap entry was 0
before the call and is 1 after it. -/
theorem create_hands_out_block_zero :
    myfs_create init_filesystem_image "/f".toList 0o644 = some (0, st_f) ∧
    get_inode_index st_f "/f".toList = some 1 ∧
    (st_f.inodes_array 1).size = 0 ∧ (st_f.inodes_array 1).links_count = 1 ∧
    (∀ k, 1 ≤ k → k < 14 → (st_f.inodes_array 1).blocks k = 0) ∧
    find_free_bit init_filesystem_image.block_bitmap BLOCKS_NUM = some 0 ∧
    (st_f.inodes_array 1).blocks 0 = 0 ∧
    init_filesystem_image.block_bitmap 0 = 0 ∧ st_f.block_bitmap 0 = 1 ∧
    (∀ b, 1 ≤ b → b < 8 → st_f.block_bitmap b = 0) := by
  refine ⟨rfl, ?_, ?_, ?_, ?_, ?_, ?_, ?_, ?_, ?_⟩ <;> decide

set_option maxRecDepth 20000 in
/-- C18: after `create("/f")`, a two-byte `myfs_write` at offset 7167 allocates
block 1 for block index 13, writes one byte and returns `-EFBIG`; in the state
it leaves, the block bitmap and the inode table in memory differ from their
persisted copies. -/
theorem efbig_leaves_unsynced :
    Reachable lp64 st_unsynced ∧
    (myfs_write st_f "/f".toList "xy".toList 7167 false).map Prod.fst = some (-EFBIG) ∧
    st_unsynced.block_bitmap 1 = 1 ∧ st_unsynced.disk_block_bitmap 1 = 0 ∧
    (st_unsynced.inodes_array 1).blocks 13 = 1 ∧
    (st_unsynced.disk_inodes 1).blocks 13 = 0 := by
  refine ⟨reachable_after _ (by decide), ?_, ?_, ?_, ?_, ?_⟩ <;> decide

set_option maxRecDepth 40000 in
/-- C20: after `create("/f")` and writes that give `/f` size 7168 and a block for
each of its 14 block indices, the freeing loop of `myfs_unlink("/f")` finds
`blocks[0..13]` non-zero and goes on to read `blocks[14]`: the loop, and with it
`myfs_unlink`, has no defined result. -/
theorem unlink_reads_past_blocks :
    Reachable lp64 st_full14 ∧
    get_inode_index st_full14 "/f".toList = some 1 ∧
    S_ISREG (st_full14.inodes_array 1).mode = true ∧
    (st_full14.inodes_array 1).size = 7168 ∧
    (∀ k, k < 14 → (st_full14.inodes_array 1).blocks k ≠ 0) ∧
    (free_blocks (st_full14.inodes_array 1).blocks BLOCKS_NUM 0
      st_full14.block_bitmap).isNone = true ∧
    (myfs_unlink st_full14 "/f".toList).isNone = true := by
  refine ⟨reachable_after _ (by decide), ?_, ?_, ?_, ?_, ?_, ?_⟩ <;> decide

/-! ## Exhaustion, end of file, rmdir -/

theorem find_free_bit_none {bitmap : Nat → Nat} {size : Nat}
    (h : ∀ i, i < size → bitmap i ≠ 0) : find_free_bit bitmap size = none := by
  unfold find_free_bit
  rw [first_index_none]
  intro k _ hk
  simpa using h k (by omega)

/-- C14: when every entry of the inode bitmap is 1, `myfs_mkdir` of any path and
`myfs_create` of a path that does not resolve return `-ENOSPC`; when every
entry of the block bitmap is 1, `myfs_create` of a path that does not resolve
returns `-ENOSPC`; in each case the state, so both bitmaps and the inode table,
is the one before the call. -/
theorem exhaustion_enospc (s : FS) (path : CStr) (mode : Nat) :
    ((∀ i, i < INODES_NUM → s.inode_bitmap i = 1) →
      myfs_mkdir s path mode = some (-ENOSPC, s) ∧
      (get_inode_index s path = none → myfs_create s path mode = some (-ENOSPC, s))) ∧
    ((∀ b, b < BLOCKS_NUM → s.block_bitmap b = 1) → get_inode_index s path = none →
      myfs_create s path mode = some (-ENOSPC, s)) := by
  constructor
  · intro hfull
    have hnone : find_free_bit s.inode_bitmap INODES_NUM = none :=
      find_free_bit_none (fun i hi => by rw [hfull i hi]; exact one_ne_zero)
    constructor
    · unfold myfs_mkdir
      rw [hnone]
    · intro hres
      unfold myfs_create
      rw [hres]
      simp only [hnone]
  · intro hfull hres
    have hnone : find_free_bit s.block_bitmap BLOCKS_NUM = none :=
      find_free_bit_none (fun i hi => by rw [hfull i hi]; exact one_ne_zero)
    unfold myfs_create
    rw [hres]
    simp only [hnone]
    cases find_free_bit s.inode_bitmap INODES_NUM <;> rfl

set_option maxRecDepth 20000 in
/-- Witness of `exhaustion_enospc`: a state with both bitmaps full, and a path
no slot stores. -/
theorem exhaustion_enospc_witness :
    (∀ i, i < INODES_NUM → st_exhausted.inode_bitmap i = 1) ∧
    (∀ b, b < BLOCKS_NUM → st_exhausted.block_bitmap b = 1) ∧
    get_inode_index st_exhausted "/new".toList = none ∧
    myfs_mkdir st_exhausted "/new".toList 0o755 = some (-ENOSPC, st_exhausted) ∧
    myfs_create st_exhausted "/new".toList 0o644 = some (-ENOSPC, st_exhausted) :=
  ⟨fun _ _ => rfl, fun _ _ => rfl, by decide,
    ((exhaustion_enospc st_exhausted "/new".toList 0o755).1 (fun _ _ => rfl)).1,
    (exhaustion_enospc st_exhausted "/new".toList 0o644).2 (fun _ _ => rfl) (by decide)⟩

/-- C16: for a path that resolves to a file of size `size`, a requested length
`n > 0` and an offset at or past `size`, `myfs_read` returns 0 and no byte, and
the call leaves the state as it was. -/
theorem read_past_end (L : Layout) (s : FS) (path : CStr) (idx n offset : Nat)
    (hres : get_inode_index s path = some idx) (hn : 0 < n)
    (ho : (s.inodes_array idx).size ≤ offset) :
    myfs_read s path n offset = some (0, []) ∧ exec L s (.read path n offset) = some s := by
  have h : myfs_read s path n offset = some (0, []) := by
    unfold myfs_read
    rw [if_neg (by omega)]
    simp only [hres]
    rw [if_pos ho]
  exact ⟨h, by simp only [exec, h, Option.map_some']⟩

set_option maxRecDepth 20000 in
/-- Witness of `read_past_end`: after the write of `hello` to `/a/f`, a read of 5
bytes at offset 5. -/
theorem read_past_end_witness :
    get_inode_index st_hello "/a/f".toList = some 2 ∧
    (st_hello.inodes_array 2).size = 5 ∧
    myfs_read st_hello "/a/f".toList 5 5 = some (0, []) ∧
    exec lp64 st_hello (.read "/a/f".toList 5 5) = some st_hello :=
  ⟨by decide, by decide,
    read_past_end lp64 st_hello "/a/f".toList 2 5 5 (by decide) (by decide) (by decide)⟩

/-- C17: for a path that resolves to a directory whose blocks list is all zero,
`myfs_rmdir` returns 0, the slot of the directory is free afterwards and its
record is all zero, and every other slot, whatever name it stores, with the
given path as a prefix or not, has its bitmap entry and its record as before;
the block bitmap is unchanged. -/
theorem rmdir_ignores_nested (L : Layout) (s : FS) (path : CStr) (idx : Nat)
    (hres : get_inode_index s path = some idx)
    (hdir : S_ISDIR (s.inodes_array idx).mode = true)
    (hzero : ∀ k, k < 14 → (s.inodes_array idx).blocks k = 0) :
    ∃ s1, myfs_rmdir L s path = some (0, s1) ∧
      s1.inode_bitmap idx = 0 ∧ s1.inodes_array idx = zero_inode ∧
      s1.block_bitmap = s.block_bitmap ∧
      ∀ j, j ≠ idx →
        s1.inode_bitmap j = s.inode_bitmap j ∧ s1.inodes_array j = s.inodes_array j := by
  have h0 := hzero 0 (by decide)
  refine ⟨sync_inodes (sync_inode_bitmap (sync_block_bitmap
    (release_inode s idx s.block_bitmap))), ?_, ?_, ?_, rfl, ?_⟩
  · unfold myfs_rmdir
    simp only [hres, hdir, Bool.not_true, Bool.false_eq_true, if_false]
    have e1 : blocks_all_empty L s (s.inodes_array idx).blocks BLOCKS_NUM 0 = some true := by
      simp [blocks_all_empty, h0]
    have e2 : free_blocks (s.inodes_array idx).blocks BLOCKS_NUM 0 s.block_bitmap
        = some s.block_bitmap := by
      simp [free_blocks, h0]
    rw [e1]
    simp only [e2]
  · simp [sync_inodes, sync_inode_bitmap, sync_block_bitmap, release_inode]
  · simp [sync_inodes, sync_inode_bitmap, sync_block_bitmap, release_inode]
  · intro j hj
    simp [sync_inodes, sync_inode_bitmap, sync_block_bitmap, release_inode, upd_other _ _ hj]

set_option maxRecDepth 20000 in
/-- Witness of `rmdir_ignores_nested`: `rmdir("/a")` while `/a/f` exists; slot 2
still stores `/a/f` afterwards. -/
theorem rmdir_ignores_nested_witness :
    get_inode_index st_af "/a".toList = some 1 ∧
    (st_af.inodes_array 2).name = "/a/f".toList ∧ st_af.inode_bitmap 2 = 1 ∧
    ∃ s1, myfs_rmdir lp64 st_af "/a".toList = some (0, s1) ∧
      s1.inode_bitmap 1 = 0 ∧ s1.inodes_array 1 = zero_inode ∧
      s1.block_bitmap = st_af.block_bitmap ∧
      ∀ j, j ≠ 1 →
        s1.inode_bitmap j = st_af.inode_bitmap j ∧ s1.inodes_array j = st_af.inodes_array j :=
  ⟨by decide, by decide, by decide,
    rmdir_ignores_nested lp64 st_af "/a".toList 1 (by decide) (by decide) (by decide)⟩

/-! ## The result of a write and the size it leaves -/

/-- A property kept by one pass through the body of the loop of `myfs_write`,
the allocation step followed by the write of a chunk that stays inside the
block of its index, is kept by the loop, however the loop ends. -/
theorem write_loop_inv_chunk {idx : Nat} (P : FS → Prop)
    (hchunk : ∀ t t1 k x bytes, P t → k < 14 → ensure_block t idx k = some t1 →
      x + bytes.length ≤ BLOCK_SIZE →
      P (put_data t1 ((t1.inodes_array idx).blocks k * BLOCK_SIZE + x) bytes)) :
    ∀ (fuel : Nat) (s : FS) (buf : List Char) (offset bw : Nat) (r : WriteExit) (s1 : FS),
      P s → write_loop idx fuel s buf offset bw = some (r, s1) → P s1 := by
  intro fuel
  induction fuel with
  | zero =>
    intro s buf offset bw r s1 hP h
    cases buf with
    | nil => simp only [write_loop, Option.some.injEq, Prod.mk.injEq] at h; rw [← h.2]; exact hP
    | cons c cs => simp [write_loop] at h
  | succ fuel ih =>
    intro s buf offset bw r s1 hP h
    cases buf with
    | nil => simp only [write_loop, Option.some.injEq, Prod.mk.injEq] at h; rw [← h.2]; exact hP
    | cons c cs =>
      simp only [write_loop] at h
      split at h
      · cases h
      · split at h
        · simp only [Option.some.injEq, Prod.mk.injEq] at h; rw [← h.2]; exact hP
        · rename_i h31 h14
          split at h
          · simp only [Option.some.injEq, Prod.mk.injEq] at h; rw [← h.2]; exact hP
          · rename_i t ht
            have hmod : offset % BLOCK_SIZE < BLOCK_SIZE := Nat.mod_lt _ (by decide)
            refine ih _ _ _ _ _ _ (hchunk s t _ _ _ hP (by omega) ht ?_) h
            rw [List.length_take]
            omega

/-- The ways `myfs_write` can return: without having touched the state, from
inside its loop with the state the loop left, or after the loop with the size
updated and the three regions persisted. -/
theorem myfs_write_cases {s s1 : FS} {path : CStr} {buf : List Char} {offset : Nat}
    {append : Bool} {r : Int} (h : myfs_write s path buf offset append = some (r, s1)) :
    s1 = s ∨
    ∃ idx e t, get_inode_index s path = some idx ∧ buf ≠ [] ∧
      write_loop idx buf.length s buf
        (if append then (s.inodes_array idx).size else offset) 0 = some (e, t) ∧
      ((∃ code, e = .fail code ∧ s1 = t) ∨
       (∃ off1 bw, e = .done off1 bw ∧
          s1 = sync_block_bitmap (sync_inodes (sync_inode_bitmap
            (if (t.inodes_array idx).size < off1 then set_size t idx off1 else t))))) := by
  unfold myfs_write at h
  split at h
  · simp only [Option.some.injEq, Prod.mk.injEq] at h; exact Or.inl h.2.symm
  · rename_i hne
    split at h
    · simp only [Option.some.injEq, Prod.mk.injEq] at h; exact Or.inl h.2.symm
    · rename_i idx hidx
      simp only at h
      split at h
      · cases h
      · rename_i code t ht
        simp only [Option.some.injEq, Prod.mk.injEq] at h
        exact Or.inr ⟨idx, _, t, hidx, hne, ht, Or.inl ⟨code, rfl, h.2.symm⟩⟩
      · rename_i off1 bw t ht
        simp only [Option.some.injEq, Prod.mk.injEq] at h
        exact Or.inr ⟨idx, _, t, hidx, hne, ht, Or.inr ⟨off1, bw, rfl, h.2.symm⟩⟩


theorem write_frame_refl (s : FS) (idx : Nat) : write_frame s idx s :=
  ⟨fun _ h => h, fun _ _ => Or.inl rfl, fun _ h => absurd rfl h⟩

/-- One pass through the body of the loop of `myfs_write` on slot `idx` keeps
`write_frame`: it marks blocks, sets an unset entry to a block that was free,
and writes inside the block of the entry. -/
theorem write_frame_chunk {s t t1 : FS} {idx k x : Nat} {bytes : List Char}
    (hF : write_frame s idx t) (hens : ensure_block t idx k = some t1)
    (hx : x + bytes.length ≤ BLOCK_SIZE) :
    write_frame s idx
      (put_data t1 ((t1.inodes_array idx).blocks k * BLOCK_SIZE + x) bytes) := by
  obtain ⟨hM, hG, hD⟩ := hF
  -- the state after the allocation step
  have ht1 : (∀ c, s.block_bitmap c ≠ 0 → t1.block_bitmap c ≠ 0) ∧
      (∀ l, (t1.inodes_array idx).blocks l ≠ 0 →
        (t1.inodes_array idx).blocks l = (s.inodes_array idx).blocks l ∨
        s.block_bitmap ((t1.inodes_array idx).blocks l) = 0) ∧
      t1.data = t.data ∧
      (s.block_bitmap ((t1.inodes_array idx).blocks k) = 0 ∨
        ∃ l, (s.inodes_array idx).blocks l ≠ 0 ∧
          (s.inodes_array idx).blocks l = (t1.inodes_array idx).blocks k) := by
    unfold ensure_block at hens
    split at hens
    · rename_i hz
      split at hens
      · cases hens
      · rename_i b hb
        simp only [Option.some.injEq] at hens
        have hb0 : s.block_bitmap b = 0 := by
          by_contra hne
          exact hM b hne (find_free_block_some hb).2.1
        subst hens
        refine ⟨?_, ?_, rfl, ?_⟩
        · intro c hc
          simp only [alloc_block, upd]
          split
          · exact one_ne_zero
          · exact hM c hc
        · intro l hl
          by_cases hlk : l = k
          · subst hlk
            right
            simpa [alloc_block] using hb0
          · have e : ((alloc_block t idx k b).inodes_array idx).blocks l
                = (t.inodes_array idx).blocks l := by
              simp [alloc_block, upd, hlk]
            rw [e] at hl ⊢
            exact hG l hl
        · left
          simpa [alloc_block] using hb0
    · rename_i hnz
      simp only [Option.some.injEq] at hens
      subst hens
      refine ⟨hM, hG, rfl, ?_⟩
      rcases hG k hnz with h | h
      · exact Or.inr ⟨k, by rw [← h]; exact hnz, h.symm⟩
      · exact Or.inl h
  obtain ⟨hM1, hG1, hd1, he⟩ := ht1
  refine ⟨hM1, hG1, ?_⟩
  intro a ha
  by_cases hin : (t1.inodes_array idx).blocks k * BLOCK_SIZE + x ≤ a ∧
      a < (t1.inodes_array idx).blocks k * BLOCK_SIZE + x + bytes.length
  · have hdiv : a / BLOCK_SIZE = (t1.inodes_array idx).blocks k := by
      simp only [BLOCK_SIZE] at *
      omega
    rw [hdiv]
    exact he
  · apply hD
    rw [put_data_outside _ _ _ _ (by omega), hd1] at ha
    exact ha

/-- The final updates of `myfs_write` keep `write_frame`. -/
theorem write_frame_finish {s t : FS} {idx : Nat} (n : Nat) (hF : write_frame s idx t) :
    write_frame s idx (sync_block_bitmap (sync_inodes (sync_inode_bitmap
      (if (t.inodes_array idx).size < n then set_size t idx n else t)))) := by
  split
  · obtain ⟨hM, hG, hD⟩ := hF
    refine ⟨hM, ?_, hD⟩
    intro k hk
    have e : ((sync_block_bitmap (sync_inodes (sync_inode_bitmap
        (set_size t idx n)))).inodes_array idx).blocks k = (t.inodes_array idx).blocks k := by
      simp [sync_block_bitmap, sync_inodes, sync_inode_bitmap, set_size]
    rw [e] at hk ⊢
    exact hG k hk
  · exact hF

/-- Whatever `myfs_write` returns, it has changed the block region only inside
blocks that were free before the call or that the blocks list of the resolved
slot held before the call. -/
theorem myfs_write_frame {s s1 : FS} {path : CStr} {buf : List Char} {offset : Nat}
    {append : Bool} {r : Int} {idx : Nat}
    (h : myfs_write s path buf offset append = some (r, s1))
    (hres : get_inode_index s path = some idx) : write_frame s idx s1 := by
  rcases myfs_write_cases h with he | ⟨idx1, e, t, hidx, _, hrun, hexit⟩
  · rw [he]; exact write_frame_refl s idx
  · have : idx1 = idx := by rw [hres] at hidx; exact (Option.some.inj hidx).symm
    subst this
    have hF : write_frame s idx1 t :=
      write_loop_inv_chunk (write_frame s idx1)
        (fun u u1 k x bytes hu _ hens hx => write_frame_chunk hu hens hx)
        _ _ _ _ _ _ _ (write_frame_refl s idx1) hrun
    rcases hexit with ⟨code, _, he⟩ | ⟨off1, bw, _, he⟩
    · rw [he]; exact hF
    · rw [he]; exact write_frame_finish off1 hF


/-- The first block handed out is block 0: an allocation leaves block 0 marked. -/
theorem alloc_marks_block0 {bm : Nat → Nat} {b : Nat}
    (hb : find_free_bit bm BLOCKS_NUM = some b) : upd bm b 1 0 ≠ 0 := by
  by_cases h0 : b = 0
  · subst h0; simp
  · rw [upd_other _ _ (Ne.symm h0)]
    exact (find_free_bit_some hb).2.2 0 (by omega)

theorem block0_first_of_marked {s : FS} (h : s.block_bitmap 0 ≠ 0) : block0_first s :=
  fun h0 => absurd h0 h

/-- The loop of `myfs_write` keeps `block0_first`, however it ends. -/
theorem write_loop_block0 {idx fuel : Nat} {s t : FS} {buf : List Char} {offset bw : Nat}
    {e : WriteExit} (hB : block0_first s)
    (hrun : write_loop idx fuel s buf offset bw = some (e, t)) : block0_first t :=
  write_loop_inv block0_first
    (fun _ _ _ _ _ _ hb => block0_first_of_marked (alloc_marks_block0 hb))
    (fun _ _ _ hu => hu) _ _ _ _ _ _ _ hB hrun

/-- When the loop of `myfs_write` has run to its end on a non-empty buffer,
block 0 is marked. -/
theorem write_loop_done_marks {idx fuel : Nat} {s t : FS} {buf : List Char}
    {offset bw off1 bw1 : Nat} (hO : Owned s.block_bitmap (block_lists s))
    (hB : block0_first s) (hne : buf ≠ [])
    (hrun : write_loop idx fuel s buf offset bw = some (.done off1 bw1, t)) :
    t.block_bitmap 0 ≠ 0 := by
  cases buf with
  | nil => exact absurd rfl hne
  | cons c cs =>
    cases fuel with
    | zero => simp [write_loop] at hrun
    | succ fuel =>
      simp only [write_loop] at hrun
      split at hrun
      · cases hrun
      · split at hrun
        · simp at hrun
        · split at hrun
          · simp at hrun
          · rename_i t1 ht1
            have h1 : t1.block_bitmap 0 ≠ 0 := by
              unfold ensure_block at ht1
              split at ht1
              · split at ht1
                · cases ht1
                · rename_i b hb
                  simp only [Option.some.injEq] at ht1
                  rw [← ht1]
                  exact alloc_marks_block0 hb
              · rename_i hnz
                simp only [Option.some.injEq] at ht1
                rw [← ht1]
                intro h0
                have h2 := (hB h0).1 ((s.inodes_array idx).blocks (block_index_of offset))
                have h3 := hO.1 idx (block_index_of offset) hnz
                simp only [block_lists] at h3
                rw [h3] at h2
                cases h2
            exact write_loop_inv (fun u => u.block_bitmap 0 ≠ 0)
              (fun u k b hu _ _ _ => by
                simp only [alloc_block, upd]
                split
                · exact one_ne_zero
                · exact hu)
              (fun u pos bytes hu => hu) fuel (put_data t1 _ _) _ _ _ _ _ h1 hrun

/-- Every call of a handler keeps `block0_first`, in a state with block
ownership. -/
theorem exec_block0 {L : Layout} {s s1 : FS} {c : Call} (h : exec L s c = some s1)
    (hO : Owned s.block_bitmap (block_lists s)) (hB : block0_first s) : block0_first s1 := by
  cases c with
  | getattr path => simp only [exec, Option.some.injEq] at h; rw [← h]; exact hB
  | readdir path => rw [map_const_some h]; exact hB
  | read path size offset => rw [map_const_some h]; exact hB
  | mkdir path mode =>
    obtain ⟨r, hr⟩ := map_snd_some h
    rcases myfs_mkdir_cases hr with ⟨_, he⟩ | hok
    · rw [he]; exact hB
    · obtain ⟨_, fi, _, _, hbm, harr, _⟩ := myfs_mkdir_ok hok
      intro h0
      rw [hbm] at h0 ⊢
      obtain ⟨hb, hs⟩ := hB h0
      refine ⟨hb, fun i => ?_⟩
      rw [harr]
      simp only [upd]
      split
      · rfl
      · exact hs i
  | create path mode =>
    obtain ⟨r, hr⟩ := map_snd_some h
    rcases myfs_create_cases hr with ⟨_, he⟩ | hok
    · rw [he]; exact hB
    · obtain ⟨_, _, fi, fb, _, hfb, _, hbm, _, _⟩ := myfs_create_ok hok
      apply block0_first_of_marked
      rw [hbm]
      exact alloc_marks_block0 hfb
  | write path buf offset append =>
    obtain ⟨r, hr⟩ := map_snd_some h
    rcases myfs_write_cases hr with he | ⟨idx, e, t, _, hne, hrun, hexit⟩
    · rw [he]; exact hB
    · rcases hexit with ⟨code, _, he⟩ | ⟨off1, bw, hd, he⟩
      · rw [he]; exact write_loop_block0 hB hrun
      · subst hd
        have hm := write_loop_done_marks hO hB hne hrun
        apply block0_first_of_marked
        rw [he]
        split
        · exact hm
        · exact hm
  | unlink path =>
    obtain ⟨r, hr⟩ := map_snd_some h
    rcases myfs_unlink_cases hr with ⟨_, he⟩ | ⟨_, idx, bm, _, _, hbm, he⟩
    · rw [he]; exact hB
    · rw [he]
      intro h0
      have h00 : s.block_bitmap 0 = 0 := by
        by_contra hne
        have hch : bm 0 ≠ s.block_bitmap 0 := by
          intro heq
          exact hne (heq ▸ h0)
        exact (free_blocks_changes hbm 0 hch).2.1 rfl
      obtain ⟨hb, hs⟩ := hB h00
      refine ⟨fun b => ?_, fun i => ?_⟩
      · show bm b = 0
        by_cases hch : bm b = s.block_bitmap b
        · rw [hch]; exact hb b
        · exact (free_blocks_changes hbm b hch).1
      · show ((upd s.inodes_array idx zero_inode) i).size = 0
        simp only [upd]
        split
        · rfl
        · exact hs i
  | rmdir path =>
    obtain ⟨r, hr⟩ := map_snd_some h
    rcases myfs_rmdir_cases hr with ⟨_, he⟩ | ⟨_, idx, bm, _, _, hbm, he⟩
    · rw [he]; exact hB
    · rw [he]
      intro h0
      have h00 : s.block_bitmap 0 = 0 := by
        by_contra hne
        have hch : bm 0 ≠ s.block_bitmap 0 := by
          intro heq
          exact hne (heq ▸ h0)
        exact (free_blocks_changes hbm 0 hch).2.1 rfl
      obtain ⟨hb, hs⟩ := hB h00
      refine ⟨fun b => ?_, fun i => ?_⟩
      · show bm b = 0
        by_cases hch : bm b = s.block_bitmap b
        · rw [hch]; exact hb b
        · exact (free_blocks_changes hbm b hch).1
      · show ((upd s.inodes_array idx zero_inode) i).size = 0
        simp only [upd]
        split
        · rfl
        · exact hs i

theorem reach_block0 {L : Layout} {allowed : Call → Prop} {s : FS} (h : Reach L allowed s) :
    block0_first s := by
  induction h with
  | init =>
    intro _
    refine ⟨fun _ => rfl, fun i => ?_⟩
    simp only [init_filesystem_image, upd]
    split <;> rfl
  | step c hs _ hex ih => exact exec_block0 hex (reach_owned hs) ih


/-- The loop of `myfs_read` on slot `j` gives the same bytes in two states in
which slot `j` has the same blocks list and the blocks of that list, block 0
for its unset entries, hold the same bytes. -/
theorem read_loop_congr {s s1 : FS} {j : Nat}
    (hblocks : (s1.inodes_array j).blocks = (s.inodes_array j).blocks)
    (hdata : ∀ k a, a / BLOCK_SIZE = (s.inodes_array j).blocks k → s1.data a = s.data a) :
    ∀ (fuel n offset : Nat), read_loop s1 j fuel n offset = read_loop s j fuel n offset := by
  intro fuel
  induction fuel with
  | zero =>
    intro n offset
    cases n <;> simp [read_loop]
  | succ fuel ih =>
    intro n offset
    cases n with
    | zero => simp [read_loop]
    | succ r =>
      rw [read_loop, read_loop]
      split
      · rfl
      · split
        · rfl
        · dsimp only
          rw [ih, hblocks]
          have hmod : offset % BLOCK_SIZE < BLOCK_SIZE := Nat.mod_lt _ (by decide)
          have hp : pread_data s1.data
              ((s.inodes_array j).blocks (block_index_of offset) * BLOCK_SIZE
                + offset % BLOCK_SIZE) (min (r + 1) (BLOCK_SIZE - offset % BLOCK_SIZE))
              = pread_data s.data
              ((s.inodes_array j).blocks (block_index_of offset) * BLOCK_SIZE
                + offset % BLOCK_SIZE) (min (r + 1) (BLOCK_SIZE - offset % BLOCK_SIZE)) := by
            unfold pread_data
            apply List.map_congr_left
            intro i hi
            rw [List.mem_range] at hi
            apply hdata (block_index_of offset)
            simp only [BLOCK_SIZE] at *
            omega
          rw [hp]

/-- Write isolation while the write stays inside the arrays: in every state
reachable from a freshly formatted image, for two paths `p` and `q` that
resolve to different slots, a `myfs_write` to `p` that has a defined result,
whatever it returns, leaves `q` resolving to its slot, leaves the record in
that slot as it was, and leaves the result of `myfs_read` on `q` as it was,
for every length and offset. -/
theorem write_isolation (L : Layout) (s s1 : FS) (p q : CStr) (i j : Nat) (buf : List Char)
    (offset : Nat) (append : Bool) (r : Int) (hreach : Reachable L s)
    (hp : get_inode_index s p = some i) (hq : get_inode_index s q = some j) (hij : i ≠ j)
    (hw : myfs_write s p buf offset append = some (r, s1)) :
    get_inode_index s1 q = some j ∧ s1.inodes_array j = s.inodes_array j ∧
    ∀ n o, myfs_read s1 q n o = myfs_read s q n o := by
  have hO := reach_owned hreach
  have hB := reach_block0 hreach
  have hidx : ∀ idx, get_inode_index s p = some idx → idx = i := by
    intro idx h
    rw [hp] at h
    exact (Option.some.inj h).symm
  have hQ : s1.inode_bitmap = s.inode_bitmap ∧
      (∀ m, (s1.inodes_array m).name = (s.inodes_array m).name) ∧
      s1.inodes_array j = s.inodes_array j :=
    myfs_write_inv
      (fun t => t.inode_bitmap = s.inode_bitmap ∧
        (∀ m, (t.inodes_array m).name = (s.inodes_array m).name) ∧
        t.inodes_array j = s.inodes_array j) hw ⟨rfl, fun _ => rfl, rfl⟩
      (fun idx h t k b ht _ _ _ => by
        have := hidx idx h
        subst this
        refine ⟨ht.1, fun m => ?_, ?_⟩
        · rw [← ht.2.1 m]
          simp only [alloc_block, upd]
          split
          · rename_i hm; rw [hm]
          · rfl
        · rw [← ht.2.2]
          simp [alloc_block, upd_other _ _ (Ne.symm hij)])
      (fun idx h t n ht => by
        have := hidx idx h
        subst this
        refine ⟨ht.1, fun m => ?_, ?_⟩
        · rw [← ht.2.1 m]
          simp only [set_size, upd]
          split
          · rename_i hm; rw [hm]
          · rfl
        · rw [← ht.2.2]
          simp [set_size, upd_other _ _ (Ne.symm hij)])
      (fun t pos bytes ht => ht)
      (fun t ht => ht)
  obtain ⟨hbm, hnames, hrec⟩ := hQ
  have hq1 : get_inode_index s1 q = some j := by
    rw [← hq]
    exact get_inode_index_congr q hbm hnames
  refine ⟨hq1, hrec, fun n o => ?_⟩
  unfold myfs_read
  simp only [hq1, hq, hrec]
  by_cases hn : n = 0
  · rw [if_pos hn, if_pos hn]
  · rw [if_neg hn, if_neg hn]
    by_cases ho : (s.inodes_array j).size ≤ o
    · rw [if_pos ho, if_pos ho]
    · rw [if_neg ho, if_neg ho]
      obtain ⟨_, _, hD⟩ := myfs_write_frame hw hp
      have hdata : ∀ k a, a / BLOCK_SIZE = (s.inodes_array j).blocks k →
          s1.data a = s.data a := by
        intro k a ha
        by_contra hne
        rcases hD a hne with h0 | ⟨k1, hk1, hk2⟩
        · rw [ha] at h0
          by_cases hz : (s.inodes_array j).blocks k = 0
          · rw [hz] at h0
            have := (hB h0).2 j
            omega
          · have := hO.1 j k hz
            simp only [block_lists] at this
            rw [this] at h0
            cases h0
        · have := hO.2 i j k1 k hk1 (by simp only [block_lists]; rw [hk2, ha])
          exact hij this.1
      rw [read_loop_congr (by rw [hrec]) hdata]

set_option maxRecDepth 20000 in
/-- Witness of `write_isolation`: after the write of `hello` to `/a/f`, a write
to the directory `/a` that allocates a block and then returns `-EFBIG` leaves
`/a/f` and what is read from it as they were. -/
theorem write_isolation_witness :
    Reachable lp64 st_hello ∧
    get_inode_index st_hello "/a".toList = some 1 ∧
    get_inode_index st_hello "/a/f".toList = some 2 ∧
    myfs_write st_hello "/a".toList "zz".toList 7167 false = some (-EFBIG, st_iso) ∧
    myfs_read st_hello "/a/f".toList 5 0 = some (5, "hello".toList) ∧
    (get_inode_index st_iso "/a/f".toList = some 2 ∧
      st_iso.inodes_array 2 = st_hello.inodes_array 2 ∧
      ∀ n o, myfs_read st_iso "/a/f".toList n o = myfs_read st_hello "/a/f".toList n o) :=
  ⟨reachable_after _ (by decide), by decide, by decide, rfl, by decide,
    write_isolation lp64 st_hello st_iso "/a".toList "/a/f".toList 1 2 "zz".toList 7167 false
      (-EFBIG) (reachable_after _ (by decide)) (by decide) (by decide) (by decide) rfl⟩

/-! ## Calls that stay inside the arrays -/

/-- The loop of `myfs_write` returns when it starts at an offset whose `int
block_index` is not negative. -/
theorem write_loop_some (idx : Nat) :
    ∀ (fuel : Nat) (s : FS) (buf : List Char) (offset bw : Nat), buf.length ≤ fuel →
      (buf = [] ∨ block_index_of offset < 2 ^ 31) →
      (write_loop idx fuel s buf offset bw).isSome = true := by
  intro fuel
  induction fuel with
  | zero =>
    intro s buf offset bw hlen _
    cases buf with
    | nil => rfl
    | cons c cs => simp at hlen
  | succ fuel ih =>
    intro s buf offset bw hlen hb
    cases buf with
    | nil => rfl
    | cons c cs =>
      have hb1 : block_index_of offset < 2 ^ 31 := by
        rcases hb with h | h
        · cases h
        · exact h
      rw [write_loop]
      simp only
      rw [if_neg (by omega)]
      by_cases h14 : 14 ≤ block_index_of offset
      · rw [if_pos h14]; rfl
      · rw [if_neg h14]
        cases he : ensure_block s idx (block_index_of offset) with
        | none => rfl
        | some t =>
          simp only
          have hpos : 0 < BLOCK_SIZE - offset % BLOCK_SIZE := by
            have := Nat.mod_lt offset (show 0 < BLOCK_SIZE by decide)
            omega
          apply ih
          · simp only [List.length_drop, List.length_cons] at hlen ⊢
            omega
          · by_cases hall : (c :: cs).length ≤ BLOCK_SIZE - offset % BLOCK_SIZE
            · left
              rw [Nat.min_eq_left hall]
              exact List.drop_length _
            · right
              rw [Nat.min_eq_right (by omega)]
              simp only [block_index_of, BLOCK_SIZE] at *
              omega

/-- The loop of `myfs_read` returns when it starts at an offset whose `int
block_index` is not negative. -/
theorem read_loop_some (s : FS) (idx : Nat) :
    ∀ (fuel r offset : Nat), r ≤ fuel → (r = 0 ∨ block_index_of offset < 2 ^ 31) →
      (read_loop s idx fuel r offset).isSome = true := by
  intro fuel
  induction fuel with
  | zero =>
    intro r offset hr _
    have : r = 0 := by omega
    subst this
    rfl
  | succ fuel ih =>
    intro r offset hr hb
    cases r with
    | zero => rfl
    | succ r =>
      have hb1 : block_index_of offset < 2 ^ 31 := by
        rcases hb with h | h
        · cases h
        · exact h
      rw [read_loop]
      simp only
      rw [if_neg (by omega)]
      by_cases h14 : 14 ≤ block_index_of offset
      · rw [if_pos h14]; rfl
      · rw [if_neg h14]
        have hpos : 0 < BLOCK_SIZE - offset % BLOCK_SIZE := by
          have := Nat.mod_lt offset (show 0 < BLOCK_SIZE by decide)
          omega
        have hrec := ih (r + 1 - min (r + 1) (BLOCK_SIZE - offset % BLOCK_SIZE))
          (offset + min (r + 1) (BLOCK_SIZE - offset % BLOCK_SIZE)) (by omega)
          (by
            by_cases hall : r + 1 ≤ BLOCK_SIZE - offset % BLOCK_SIZE
            · left; rw [Nat.min_eq_left hall]; omega
            · right
              rw [Nat.min_eq_right (by omega)]
              simp only [block_index_of, BLOCK_SIZE] at *
              omega)
        cases hrl : read_loop s idx fuel (r + 1 - min (r + 1) (BLOCK_SIZE - offset % BLOCK_SIZE))
            (offset + min (r + 1) (BLOCK_SIZE - offset % BLOCK_SIZE)) with
        | none => rw [hrl] at hrec; cases hrec
        | some rest => rfl

/-- The first loop of `myfs_rmdir` returns when the blocks list has a zero
entry. -/
theorem blocks_all_empty_some (L : Layout) (s : FS) (blocks : Nat → Nat) :
    ∀ (n i : Nat), 14 - i < n → (∃ k, i ≤ k ∧ k < 14 ∧ blocks k = 0) →
      (blocks_all_empty L s blocks n i).isSome = true := by
  intro n
  induction n with
  | zero => intro i h; omega
  | succ n ih =>
    intro i hn hz
    obtain ⟨k, hk1, hk2, hk3⟩ := hz
    rw [blocks_all_empty]
    rw [if_neg (by omega)]
    by_cases hzi : blocks i = 0
    · rw [if_pos hzi]; rfl
    · rw [if_neg hzi]
      split
      · rfl
      · apply ih (i + 1) (by omega)
        refine ⟨k, ?_, hk2, hk3⟩
        by_contra hc
        have : k = i := by omega
        rw [this] at hk3
        exact hzi hk3

theorem any_zero_entry {blocks : Nat → Nat}
    (h : (List.range 14).any (fun k => blocks k == 0) = true) : ∃ k, k < 14 ∧ blocks k = 0 := by
  simp only [List.any_eq_true, List.mem_range, beq_iff_eq] at h
  exact h

/-- A call that is `in_bounds` has a defined result. -/
theorem exec_in_bounds (L : Layout) (s : FS) (c : Call) (h : in_bounds s c = true) :
    ∃ s1, exec L s c = some s1 := by
  rw [← Option.isSome_iff_exists]
  cases c with
  | getattr path => rfl
  | readdir path =>
    simp only [in_bounds, List.contains_iff_exists_mem_beq, beq_iff_eq] at h
    have hm : '/' ∈ path := by
      obtain ⟨a, ha, hb⟩ := h
      rw [← hb] at ha
      exact ha
    simp only [exec, myfs_readdir, Option.isSome_map']
    cases hal : after_last '/' path with
    | none => exact absurd hm (after_last_none.mp hal)
    | some name =>
      simp only
      split <;> rfl
  | mkdir path mode =>
    simp only [in_bounds, decide_eq_true_eq] at h
    simp only [exec, myfs_mkdir, Option.isSome_map']
    split
    · rfl
    · rw [if_neg (by omega)]; rfl
  | create path mode =>
    simp only [in_bounds, decide_eq_true_eq] at h
    simp only [exec, myfs_create, Option.isSome_map']
    split
    · rfl
    · split
      · rfl
      · split
        · rfl
        · rw [if_neg (by omega)]; rfl
  | write path buf offset append =>
    simp only [exec, myfs_write, Option.isSome_map']
    split
    · rfl
    · cases hidx : get_inode_index s path with
      | none => rfl
      | some idx =>
        simp only [in_bounds, hidx, decide_eq_true_eq] at h
        simp only
        have hs := write_loop_some idx buf.length s buf
          (if append = true then (s.inodes_array idx).size else offset) 0 (le_refl _) (Or.inr h)
        split
        · rename_i hn; rw [hn] at hs; cases hs
        · rfl
        · rfl
  | read path size offset =>
    simp only [in_bounds, decide_eq_true_eq] at h
    simp only [exec, myfs_read, Option.isSome_map']
    split
    · rfl
    · split
      · rfl
      · rename_i idx hidx
        split
        · rfl
        · have hs := read_loop_some s idx size size offset (le_refl _) (Or.inr h)
          split
          · rename_i hn; rw [hn] at hs; cases hs
          · rfl
  | unlink path =>
    simp only [exec, myfs_unlink, Option.isSome_map']
    cases hidx : get_inode_index s path with
    | none => rfl
    | some idx =>
      simp only [in_bounds, hidx] at h
      obtain ⟨k, hk, hz⟩ := any_zero_entry h
      simp only
      split
      · rfl
      · split
        · rename_i hn
          exact absurd hz ((free_blocks_out_of_bounds _ _).mp hn k hk)
        · rfl
  | rmdir path =>
    simp only [exec, myfs_rmdir, Option.isSome_map']
    cases hidx : get_inode_index s path with
    | none => rfl
    | some idx =>
      simp only [in_bounds, hidx] at h
      obtain ⟨k, hk, hz⟩ := any_zero_entry h
      simp only
      split
      · rfl
      · have hb := blocks_all_empty_some L s (s.inodes_array idx).blocks BLOCKS_NUM 0
          (by decide) ⟨k, Nat.zero_le _, hk, hz⟩
        split
        · rename_i hn; rw [hn] at hb; cases hb
        · rfl
        · split
          · rename_i hn
            exact absurd hz ((free_blocks_out_of_bounds _ _).mp hn k hk)
          · rfl

/-- A sequence of calls that are all `in_bounds` runs to its end. -/
theorem run_in_bounds (L : Layout) :
    ∀ (cs : List Call) (s : FS), runs_in_bounds L s cs = true → ∃ s1, run L s cs = some s1 := by
  intro cs
  induction cs with
  | nil => intro s _; exact ⟨s, rfl⟩
  | cons c cs ih =>
    intro s h
    simp only [runs_in_bounds, Bool.and_eq_true] at h
    obtain ⟨s1, hs1⟩ := exec_in_bounds L s c h.1
    rw [hs1] at h
    obtain ⟨s2, hs2⟩ := ih s1 h.2
    exact ⟨s2, by rw [run, hs1]; exact hs2⟩

/-! ## The root slot over calls that stay inside the arrays -/

/-- C8, as amended: every sequence of handler calls started on a freshly
formatted image, in which no call is an `rmdir` or a `write` on the path `/`
and every call keeps the array accesses of its handler inside the arrays
(`in_bounds`), runs to its end, and in the state it leaves slot `ROOT_INODE`
has bitmap entry 1, is a directory, is named `/` and has every entry of its
blocks list equal to 0. -/
theorem root_invariant (L : Layout) (cs : List Call) (hroot : ∀ c ∈ cs, spares_root c)
    (hin : runs_in_bounds L init_filesystem_image cs = true) :
    ∃ s, run L init_filesystem_image cs = some s ∧
      s.inode_bitmap ROOT_INODE = 1 ∧ S_ISDIR (s.inodes_array ROOT_INODE).mode = true ∧
      (s.inodes_array ROOT_INODE).name = ['/'] ∧
      ∀ k, k < 14 → (s.inodes_array ROOT_INODE).blocks k = 0 := by
  obtain ⟨s, hs⟩ := run_in_bounds L cs init_filesystem_image hin
  obtain ⟨h1, h2⟩ := reach_root_kept (reach_run cs Reach.init hroot hs)
  refine ⟨s, hs, h1, ?_⟩
  rw [h2]
  exact ⟨by decide, rfl, fun _ _ => rfl⟩

set_option maxRecDepth 40000 in
/-- Witness of `root_invariant`: the scenario of the specification followed by
`unlink("/")`, which returns `-EISDIR`. -/
theorem root_invariant_witness :
    (∀ c ∈ scenario_calls, spares_root c) ∧
    runs_in_bounds lp64 init_filesystem_image scenario_calls = true ∧
    ∃ s, run lp64 init_filesystem_image scenario_calls = some s ∧
      s.inode_bitmap ROOT_INODE = 1 ∧ S_ISDIR (s.inodes_array ROOT_INODE).mode = true ∧
      (s.inodes_array ROOT_INODE).name = ['/'] ∧
      ∀ k, k < 14 → (s.inodes_array ROOT_INODE).blocks k = 0 :=
  ⟨by simp [scenario_calls, spares_root], by decide,
    root_invariant lp64 scenario_calls (by simp [scenario_calls, spares_root]) (by decide)⟩

/-! ## A created file across further calls -/


/-- A mode built by `myfs_create` is not the mode of a directory. -/
theorem created_mode_not_dir (mode : Nat) : S_ISDIR (S_IFREG ||| mode) = false := by
  simp only [S_ISDIR, beq_eq_false_iff_ne, ne_eq]
  intro h
  have h15 := congrArg (fun x => Nat.testBit x 15) h
  simp only [Nat.testBit_and, Nat.testBit_or] at h15
  have a : Nat.testBit S_IFREG 15 = true := by decide
  have b : Nat.testBit S_IFMT 15 = true := by decide
  have c : Nat.testBit S_IFDIR 15 = false := by decide
  rw [a, b, c] at h15
  simp at h15

theorem holds_file_of_eq {p : CStr} {k : Nat} {s t : FS} (h : holds_file p k s)
    (h1 : t.inode_bitmap k = s.inode_bitmap k) (h2 : t.inodes_array k = s.inodes_array k) :
    holds_file p k t :=
  ⟨h.1, by rw [h1]; exact h.2.1, by rw [h2]; exact h.2.2.1, by rw [h2]; exact h.2.2.2⟩

theorem free_ne_held {p : CStr} {k fi : Nat} {s : FS} (h : holds_file p k s)
    (hfi : find_free_bit s.inode_bitmap INODES_NUM = some fi) : k ≠ fi := by
  intro hc
  have := (find_free_bit_some hfi).2.1
  rw [← hc] at this
  exact h.2.1 this

/-- Every call other than `unlink(p)` leaves an inode named `p` that is not a
directory in its slot. -/
theorem exec_holds_file {L : Layout} {s s1 : FS} {c : Call} {p : CStr} {k : Nat}
    (h : exec L s c = some s1) (hc : c ≠ Call.unlink p) (hk : holds_file p k s) :
    holds_file p k s1 := by
  cases c with
  | getattr path => simp only [exec, Option.some.injEq] at h; rw [← h]; exact hk
  | readdir path => rw [map_const_some h]; exact hk
  | read path size offset => rw [map_const_some h]; exact hk
  | mkdir path mode =>
    obtain ⟨r, hr⟩ := map_snd_some h
    rcases myfs_mkdir_cases hr with ⟨_, he⟩ | hok
    · rw [he]; exact hk
    · obtain ⟨_, fi, hfi, hbm, _, harr, _⟩ := myfs_mkdir_ok hok
      have hne := free_ne_held hk hfi
      exact holds_file_of_eq hk (by rw [hbm, upd_other _ _ hne]) (by rw [harr, upd_other _ _ hne])
  | create path mode =>
    obtain ⟨r, hr⟩ := map_snd_some h
    rcases myfs_create_cases hr with ⟨_, he⟩ | hok
    · rw [he]; exact hk
    · obtain ⟨_, _, fi, fb, hfi, _, hbm, _, harr, _⟩ := myfs_create_ok hok
      have hne := free_ne_held hk hfi
      exact holds_file_of_eq hk (by rw [hbm, upd_other _ _ hne]) (by rw [harr, upd_other _ _ hne])
  | write path buf offset append =>
    obtain ⟨r, hr⟩ := map_snd_some h
    refine myfs_write_inv (holds_file p k) hr hk ?_ ?_ ?_ ?_
    · intro idx _ t j b ht _ _ _
      refine ⟨ht.1, ht.2.1, ?_, ?_⟩
      · have := ht.2.2.1
        simp only [alloc_block, upd] at this ⊢
        split <;> simp_all
      · have := ht.2.2.2
        simp only [alloc_block, upd] at this ⊢
        split <;> simp_all
    · intro idx _ t n ht
      refine ⟨ht.1, ht.2.1, ?_, ?_⟩
      · have := ht.2.2.1
        simp only [set_size, upd] at this ⊢
        split <;> simp_all
      · have := ht.2.2.2
        simp only [set_size, upd] at this ⊢
        split <;> simp_all
    · intro t pos bytes ht; exact ht
    · intro t ht; exact ht
  | unlink path =>
    have hp : path ≠ p := fun e => hc (by rw [e])
    obtain ⟨r, hr⟩ := map_snd_some h
    rcases myfs_unlink_cases hr with ⟨_, he⟩ | ⟨_, idx, bm, hidx, _, _, he⟩
    · rw [he]; exact hk
    · rw [he]
      have hne : k ≠ idx := by
        intro e
        have hn := (get_inode_index_some hidx).2.2.1
        rw [← e, hk.2.2.1] at hn
        exact hp hn.symm
      exact holds_file_of_eq hk (by simp [sync_inodes, sync_inode_bitmap, sync_block_bitmap, release_inode, upd_other _ _ hne])
        (by simp [sync_inodes, sync_inode_bitmap, sync_block_bitmap, release_inode, upd_other _ _ hne])
  | rmdir path =>
    obtain ⟨r, hr⟩ := map_snd_some h
    rcases myfs_rmdir_cases hr with ⟨_, he⟩ | ⟨_, idx, bm, hidx, hdir, _, he⟩
    · rw [he]; exact hk
    · rw [he]
      have hne : k ≠ idx := by
        intro e
        rw [← e, hk.2.2.2] at hdir
        cases hdir
      exact holds_file_of_eq hk (by simp [sync_inodes, sync_inode_bitmap, sync_block_bitmap, release_inode, upd_other _ _ hne])
        (by simp [sync_inodes, sync_inode_bitmap, sync_block_bitmap, release_inode, upd_other _ _ hne])

theorem run_holds_file {L : Layout} {p : CStr} {k : Nat} :
    ∀ (cs : List Call) (s s1 : FS), (∀ c ∈ cs, c ≠ Call.unlink p) → run L s cs = some s1 →
      holds_file p k s → holds_file p k s1 := by
  intro cs
  induction cs with
  | nil => intro s s1 _ h hk; simp only [run, Option.some.injEq] at h; rw [← h]; exact hk
  | cons c cs ih =>
    intro s s1 hall h hk
    unfold run at h
    cases hc : exec L s c with
    | none => rw [hc] at h; cases h
    | some s2 =>
      rw [hc] at h
      exact ih s2 s1 (fun c1 h1 => hall c1 (List.mem_cons_of_mem _ h1)) h
        (exec_holds_file hc (hall c (List.mem_cons_self _ _)) hk)

/-- After a successful `myfs_create` of `p` and any further calls with a defined
result, none of them `unlink(p)`, a `myfs_create` of `p` returns `-EEXIST` and
leaves the state as it found it. -/
theorem create_eexist_after_calls (L : Layout) (s s1 s2 : FS) (p : CStr) (mode mode2 : Nat)
    (cs : List Call) (h : myfs_create s p mode = some (0, s1))
    (hcs : ∀ c ∈ cs, c ≠ Call.unlink p) (hrun : run L s1 cs = some s2) :
    myfs_create s2 p mode2 = some (-EEXIST, s2) := by
  obtain ⟨_, _, fi, fb, hfi, _, hbm, _, harr, _⟩ := myfs_create_ok h
  have hk : holds_file p fi s1 :=
    ⟨(find_free_bit_some hfi).1, by rw [hbm]; simp, by rw [harr]; simp,
      by rw [harr]; simp [created_mode_not_dir]⟩
  have hk2 := run_holds_file cs s1 s2 hcs hrun hk
  obtain ⟨j, hj, _⟩ := @get_inode_index_exists s2 p fi hk2.1 hk2.2.1 hk2.2.2.1
  exact myfs_create_exists mode2 hj

set_option maxRecDepth 40000 in
/-- An instance of `create_eexist_after_calls`: after `create("/f")`, the calls
`mkdir("/f")`, a write to `/f`, `rmdir("/f")`, `create("/g")` and `unlink("/g")`
run, and `create("/f")` then returns `-EEXIST`. -/
theorem create_eexist_after_calls_witness :
    myfs_create init_filesystem_image "/f".toList 0o644 = some (0, st_f) ∧
    ∃ s2, run lp64 st_f
        [.mkdir "/f".toList 0o755, .write "/f".toList "x".toList 0 false, .rmdir "/f".toList,
         .create "/g".toList 0o644, .unlink "/g".toList] = some s2 ∧
      myfs_create s2 "/f".toList 0o600 = some (-EEXIST, s2) := by
  refine ⟨rfl, ?_⟩
  have h : (run lp64 st_f
      [.mkdir "/f".toList 0o755, .write "/f".toList "x".toList 0 false, .rmdir "/f".toList,
       .create "/g".toList 0o644, .unlink "/g".toList]).isSome = true := by decide
  obtain ⟨s2, hs2⟩ := Option.isSome_iff_exists.mp h
  exact ⟨s2, hs2, create_eexist_after_calls lp64 init_filesystem_image st_f s2 "/f".toList
    0o644 0o600 _ rfl (by simp) hs2⟩

/-! ## Accesses outside the arrays at concrete inputs -/

/-- In the layout `lp64` the characters of `name` are the bytes 4 to 259 of a
record. -/
theorem lp64_name_bytes (ino : inode_t) (k : Nat) (hk : k < MAX_NAME_LEN) :
    lp64.inode_byte ino (4 + k) = (ino.name.getD k (Char.ofNat 0)).toNat := by
  simp only [lp64]
  rw [if_neg (by omega), if_pos (by simp only [MAX_NAME_LEN] at hk; omega),
    Nat.add_sub_cancel_left]

set_option maxRecDepth 40000 in
/-- C4: `create(long_path)` after `mkdir(parent_dir)`.  The path does not
resolve, slot 2 and block 0 are free, and the handler copies the 273 characters
of the path into `name[MAX_NAME_LEN]` with `strcpy`: the call writes outside
`name` and has no defined result.  In the layout `lp64` character 272 of the
copy lands on byte 276 of the record, the low byte of `blocks[0]`, which the
handler sets after the copy to the block it found, 0: the string the record
then starts with has 272 characters and is not `long_path`. -/
theorem create_long_path_overruns_name :
    long_path.length = 273 ∧ MAX_NAME_LEN ≤ long_path.length ∧
    Reachable lp64 st_parent ∧
    get_inode_index st_parent long_path = none ∧
    find_free_bit st_parent.inode_bitmap INODES_NUM = some 2 ∧
    find_free_bit st_parent.block_bitmap BLOCKS_NUM = some 0 ∧
    (myfs_create st_parent long_path 0o644).isNone = true ∧
    (∀ ino : inode_t, lp64.inode_byte ino (4 + 272) = le_byte (ino.blocks 0) 0) ∧
    le_byte 0 0 = 0 ∧
    (long_path.take 272).length = 272 ∧ long_path.take 272 ≠ long_path := by
  refine ⟨by decide, by decide, reachable_after _ (by decide), by decide, by decide, by decide,
    by decide, fun _ => rfl, by decide, by decide, by decide⟩

set_option maxRecDepth 40000 in
/-- C9: `mkdir(long_path)` after `mkdir(parent_dir)`.  Slot 2 is free and the
handler copies the 273 characters of the path into `name[MAX_NAME_LEN]` of that
slot with `strcpy`: the call writes outside `name` and has no defined result.
In the layout `lp64` the characters of `name` are the bytes from 4 on, and
character 272 of the copy, an `a` (97), lands on byte 276 of the record, the
low byte of `blocks[0]`; block 97 is free in the block bitmap. -/
theorem mkdir_long_path_overruns_name :
    long_path.length = 273 ∧ MAX_NAME_LEN ≤ long_path.length ∧
    Reachable lp64 st_parent ∧
    find_free_bit st_parent.inode_bitmap INODES_NUM = some 2 ∧
    (myfs_mkdir st_parent long_path 0o755).isNone = true ∧
    (∀ (ino : inode_t) (k : Nat), k < MAX_NAME_LEN →
      lp64.inode_byte ino (4 + k) = (ino.name.getD k (Char.ofNat 0)).toNat) ∧
    (∀ ino : inode_t, lp64.inode_byte ino (4 + 272) = le_byte (ino.blocks 0) 0) ∧
    (long_path.getD 272 'x').toNat = 97 ∧
    st_parent.block_bitmap 97 = 0 := by
  refine ⟨by decide, by decide, reachable_after _ (by decide), by decide, by decide,
    lp64_name_bytes, fun _ => rfl, by decide, by decide⟩

set_option maxRecDepth 40000 in
/-- C19: in `st_two` the path `/f` resolves to slot 1 and `/g` to slot 2, whose
block index 0 is block 1 and which reads `hello`.  At offset
`(2 ^ 32 - 1) * BLOCK_SIZE` the `int block_index` is -1, which the guard
`block_index >= 14` lets through: a one-byte `myfs_write` to `/f` there indexes
`blocks[-1]` and has no defined result.  In the layout `lp64` the bytes 272 to
275 of a record, the four before `blocks`, are `links_count`, which is 1 for
`/f`; with the byte written at the start of block `links_count`, `myfs_read`
on `/g` returns `xello`. -/
theorem write_negative_block_index :
    Reachable lp64 st_two ∧
    get_inode_index st_two "/f".toList = some 1 ∧
    get_inode_index st_two "/g".toList = some 2 ∧
    (st_two.inodes_array 2).blocks 0 = 1 ∧
    myfs_read st_two "/g".toList 5 0 = some (5, "hello".toList) ∧
    block_index_of ((2 ^ 32 - 1) * BLOCK_SIZE) = 2 ^ 32 - 1 ∧
    to_int ((2 ^ 32 - 1) * BLOCK_SIZE / BLOCK_SIZE) = -1 ∧
    (myfs_write st_two "/f".toList "x".toList ((2 ^ 32 - 1) * BLOCK_SIZE) false).isNone = true ∧
    (∀ (ino : inode_t) (k : Nat), k < 4 →
      lp64.inode_byte ino (272 + k) = le_byte ino.links_count k) ∧
    (st_two.inodes_array 1).links_count = 1 ∧
    myfs_read (put_data st_two ((st_two.inodes_array 1).links_count * BLOCK_SIZE) "x".toList)
      "/g".toList 5 0 = some (5, "xello".toList) := by
  refine ⟨reachable_after _ (by decide), by decide, by decide, by decide, by decide, by decide,
    by decide, by decide, ?_, by decide, by decide⟩
  intro ino k hk
  simp only [lp64]
  rw [if_neg (by omega), if_neg (by omega), if_neg (by omega), if_neg (by omega),
    if_pos (by omega), Nat.add_sub_cancel_left]

end Myfs
